import Mathlib

/-!
Verification development for the yosys-als approximate logic synthesis pass.

The definitions below are a shallow embedding of the C++ sources:
truth-table utilities (`smt_utils`), the SMT-based LUT synthesis procedure
(`smtsynth.cc`, with the solver modelled as an exhaustive search over the
finite space of structure/polarity assignments the encoding quantifies over),
the catalogue ladder construction (`AlsWorker::exact_synthesis_helper`), the
optimizer primitives (`Optimizer.h` / `ErSEvaluator`), the graph evaluator
and the closed-form Z-matrix reliability evaluator (`Optimizer.cc`).
Machine doubles are modelled as exact rationals; the solver's 8-bit
bit-vector adder is modelled by arithmetic mod 256.
-/

set_option maxRecDepth 10000

namespace yosys_als

/-- Check if power of two (`smt_utils.h`, `is_power_of_2`):
`x && ((x & (x - 1)) == 0)`. -/
def is_power_of_2 (x : ℕ) : Bool := x != 0 && (x &&& (x - 1)) == 0

/-- Bit width of a natural number, by repeated halving (with enough fuel). -/
def bit_width_aux : ℕ → ℕ → ℕ
  | 0, _ => 0
  | fuel + 1, m => if m = 0 then 0 else bit_width_aux fuel (m / 2) + 1

/-- Fast ceil log2 (`smt_utils.cc`, `ceil_log2`): for `x > 1` the bit width of
`x - 1` (`(8 * sizeof x) - __builtin_clz (x - 1)`), otherwise `0`. -/
def ceil_log2 (x : ℕ) : ℕ := if 1 < x then bit_width_aux (x - 1) (x - 1) else 0

/-- Truth table value of variable `i` at row `t` (`smt_utils.h`,
`truth_table_value`): variable `0` is always false, otherwise
`t % (1 << i) >= (1 << (i - 1))`. -/
def truth_table_value (i t : ℕ) : Bool :=
  if i = 0 then false else decide (2 ^ (i - 1) ≤ t % 2 ^ i)

/-- Column `i` of the truth table on `num_vars` variables with polarity `p`
(`smt_utils.cc`, `truth_table_column`): `bs[t] = truth_table_value i t == p`. -/
def truth_table_column (i num_vars : ℕ) (p : Bool) : List Bool :=
  (List.range (2 ^ num_vars)).map (fun t => truth_table_value i t == p)

/-- Hamming distance between two bitsets (`smt_utils.cc`, `hamming_distance`);
only ever invoked on bitsets of equal size. -/
def hamming_distance (bs1 bs2 : List Bool) : ℕ :=
  (bs1.zip bs2).countP (fun q => q.1 != q.2)

/-- Scanning loop of `smtsynth.cc` `single_var`: for each variable index try
positive polarity (result `i * 2`) then negative polarity (result `i * 2 + 1`),
returning the first index whose column is within `out_distance`. -/
def single_var_aux (fun_spec : List Bool) (out_distance num_vars : ℕ) :
    List ℕ → Option ℕ
  | [] => none
  | i :: rest =>
    if hamming_distance fun_spec (truth_table_column i num_vars true) ≤ out_distance then
      some (i * 2)
    else if hamming_distance fun_spec (truth_table_column i num_vars false) ≤ out_distance then
      some (i * 2 + 1)
    else single_var_aux fun_spec out_distance num_vars rest

/-- `smtsynth.cc`, `single_var`: tries to satisfy a specification with a single
variable, scanning indices `0 .. num_vars` (0 = constant) in both polarities. -/
def single_var (fun_spec : List Bool) (out_distance : ℕ) : Option ℕ :=
  single_var_aux fun_spec out_distance (ceil_log2 fun_spec.length)
    (List.range (ceil_log2 fun_spec.length + 1))

/-- AIG model (`smtsynth.h`, `aig_model_t`).  The header revision declaring the
`is_valid` flag is not among the sources; modelled from the spec: the flag
starts out false and is only set on the two success paths of `synthesize_lut`.
`num_gates`, `out` and `out_p` are left unwritten by the C++ on the
exhausted-search return path; the model uses their default initializers. -/
structure aig_model_t where
  fun_spec : List Bool := []
  num_inputs : ℕ := 0
  num_gates : ℕ := 0
  s : List (ℕ × ℕ) := []
  p : List (Bool × Bool) := []
  out : ℕ := 0
  out_p : Bool := false
  is_valid : Bool := false
deriving Repr, DecidableEq, Inhabited

/-- The input rows of `s` pushed by `synthesize_lut` before the search:
entry `i` is `{i, i}`. -/
def input_rows (n : ℕ) : List (ℕ × ℕ) := (List.range (n + 1)).map (fun i => (i, i))

/-- The input rows of `p` pushed by `synthesize_lut`: all `{true, true}`. -/
def input_pols (n : ℕ) : List (Bool × Bool) := (List.range (n + 1)).map (fun _ => (true, true))

/-- One candidate gate of the SMT encoding: fan-in indices `s[0], s[1]` and
polarities `p[0], p[1]`. -/
abbrev gate_t := (ℕ × ℕ) × (Bool × Bool)

/-- Truth values of all nodes at row `t`: the inputs carry the fixed columns
asserted on `ctx.b`, each gate computes the AND of its (possibly inverted)
fan-ins, exactly as the implication-guarded constraints force `b[i][t]`. -/
def node_vals (n t : ℕ) (gates : List gate_t) : List Bool :=
  gates.foldl
    (fun acc g =>
      acc ++ [((acc.getD g.1.1 false) ^^ !g.2.1) && ((acc.getD g.1.2 false) ^^ !g.2.2)])
    ((List.range (n + 1)).map (fun i => truth_table_value i t))

/-- Value of the final node at row `t` under output polarity `op`
(the function realized: `b.back()[t] ^ !out_p`). -/
def node_out (n t : ℕ) (gates : List gate_t) (op : Bool) : Bool :=
  (node_vals n t gates).getLastD false ^^ !op

/-- Structural constraints of the encoding: for the gate at node index
`n + 1 + gi`, `s[0] < s[1] < n + 1 + gi` (no cycles, symmetry-breaking order). -/
def check_struct (n : ℕ) (gates : List gate_t) : Bool :=
  gates.enum.all (fun q => q.2.1.1 < q.2.1.2 && q.2.1.2 < n + 1 + q.1)

/-- Function-semantics constraint (`assume_function_semantics`): at distance 0
the final node's column equals `fun_spec` under the output polarity; at
positive distance the number of mismatching rows, accumulated by the 8-bit
adder chain, is at most `out_distance` (both sides reduced mod 256 by the
8-bit bit-vector sort). -/
def check_sem (fun_spec : List Bool) (out_distance n : ℕ) (gates : List gate_t) (op : Bool) :
    Bool :=
  if out_distance = 0 then
    (List.range fun_spec.length).all (fun t => node_out n t gates op == fun_spec.getD t false)
  else
    decide
      (((List.range fun_spec.length).countP
          (fun t => node_out n t gates op != fun_spec.getD t false)) % 256 ≤
        out_distance % 256)

/-- All structure/polarity choices for the gate at node index `i`
respecting `s0 < s1 < i`. -/
def gate_choices (i : ℕ) : List gate_t :=
  (List.range i).flatMap (fun s1 =>
    (List.range s1).flatMap (fun s0 =>
      [((s0, s1), (false, false)), ((s0, s1), (false, true)),
       ((s0, s1), (true, false)), ((s0, s1), (true, true))]))

/-- All gate lists of length `k` over nodes `n + 1 .. n + k`. -/
def gates_choices (n : ℕ) : ℕ → List (List gate_t)
  | 0 => [[]]
  | k + 1 => (gates_choices n k).flatMap (fun gs => (gate_choices (n + 1 + k)).map (fun g => gs ++ [g]))

/-- Satisfying assignment of the constraint system with `k` gates, if any: the
model-generation step of the incremental solver. -/
def find_model (fun_spec : List Bool) (out_distance n k : ℕ) : Option (List gate_t × Bool) :=
  ((gates_choices n k).flatMap (fun gs => [(gs, false), (gs, true)])).find?
    (fun q => check_struct n q.1 && check_sem fun_spec out_distance n q.1 q.2)

/-- Satisfiability of the constraint system with `k` gates. -/
def sat_at (fun_spec : List Bool) (out_distance n k : ℕ) : Bool :=
  (find_model fun_spec out_distance n k).isSome

/-- Read back the model from a satisfying assignment (`synthesize_lut`, model
population): achieved `fun_spec` from the final node's column, structure and
polarities appended after the input rows, output = last node. -/
def model_of (fun_spec : List Bool) (n : ℕ) (gs : List gate_t) (op : Bool) : aig_model_t :=
  { fun_spec := (List.range fun_spec.length).map (fun t => node_out n t gs op)
    num_inputs := n + 1
    num_gates := gs.length
    s := input_rows n ++ gs.map (·.1)
    p := input_pols n ++ gs.map (·.2)
    out := n + gs.length
    out_p := op
    is_valid := true }

/-- The partially built model returned when the growing search hits
`max_tries` at positive distance: only `num_inputs`, `s`, `p` have been
written; `is_valid` is still false. -/
def exhausted_model (n : ℕ) : aig_model_t :=
  { num_inputs := n + 1, s := input_rows n, p := input_pols n }

/-- The growing-circuit solver loop of `synthesize_lut`: while UNSAT, abort
with the exhausted model once `tries ≥ max_tries` at positive distance,
otherwise add one gate.  `fuel` bounds the number of iterations modelled
(the distance-0 loop has no bound in the C++). -/
def solver_loop (fun_spec : List Bool) (out_distance max_tries n : ℕ) :
    ℕ → ℕ → Option aig_model_t
  | _, 0 => none
  | k, fuel + 1 =>
    match find_model fun_spec out_distance n k with
    | some q => some (model_of fun_spec n q.1 q.2)
    | none =>
      if 0 < out_distance ∧ max_tries ≤ k then some (exhausted_model n)
      else solver_loop fun_spec out_distance max_tries n (k + 1) fuel

/-- Outcome of `synthesize_lut`: the `std::invalid_argument` throw, a returned
model, or a search still running after `fuel` grow steps. -/
inductive synth_outcome where
  | invalid_spec : synth_outcome
  | model : aig_model_t → synth_outcome
  | running : synth_outcome
deriving Repr, DecidableEq

/-- The zero-gate model returned by the single-variable shortcut:
`out = sel / 2`, `out_p = (sel % 2 == 0)`, recorded `fun_spec` is the
truth-table column of the selected variable/polarity. -/
def shortcut_model (n sel : ℕ) : aig_model_t :=
  { fun_spec := truth_table_column (sel / 2) n (sel % 2 == 0)
    num_inputs := n + 1
    num_gates := 0
    s := input_rows n
    p := input_pols n
    out := sel / 2
    out_p := sel % 2 == 0
    is_valid := true }

/-- `smtsynth.cc`, `synthesize_lut`: specification validation, the
single-variable shortcut, then the incremental growing-circuit search. -/
def synthesize_lut (fun_spec : List Bool) (out_distance max_tries fuel : ℕ) : synth_outcome :=
  if fun_spec.isEmpty || !is_power_of_2 fun_spec.length then .invalid_spec
  else
    match single_var fun_spec out_distance with
    | some sel => .model (shortcut_model (ceil_log2 fun_spec.length) sel)
    | none =>
      match solver_loop fun_spec out_distance max_tries (ceil_log2 fun_spec.length) 0 fuel with
      | some m => .model m
      | none => .running

/-- Replay a model's recorded structure through the gate semantics: node `i`
is the variable column for `i < num_inputs`, an AND of its (possibly
inverted) fan-ins otherwise.  Recursion is by fuel; `i + 1` suffices for an
acyclic model (fan-in indices below the node index). -/
def eval_model_node (m : aig_model_t) (t : ℕ) : ℕ → ℕ → Bool
  | 0, _ => false
  | fuel + 1, i =>
    if i < m.num_inputs then truth_table_value i t
    else
      ((eval_model_node m t fuel (m.s.getD i (0, 0)).1 ^^ !(m.p.getD i (true, true)).1) &&
       (eval_model_node m t fuel (m.s.getD i (0, 0)).2 ^^ !(m.p.getD i (true, true)).2))

/-- Evaluation of the node selected as the model's output, with its polarity. -/
def eval_model (m : aig_model_t) (t : ℕ) : Bool :=
  eval_model_node m t (m.out + 1) m.out ^^ !m.out_p

/-- The catalogue ladder loop of `AlsWorker::exact_synthesis_helper`: while
the last entry has gates, synthesize at the next distance and push the result
(the C++ pushes it unconditionally, with no validity check).  `lfuel` bounds
the number of modelled iterations. -/
def ladder_loop (fun_spec : List Bool) (max_tries fuel : ℕ) :
    List aig_model_t → ℕ → ℕ → Option (List aig_model_t)
  | acc, _, 0 => if (acc.getLastD default).num_gates = 0 then some acc else none
  | acc, dist, lfuel + 1 =>
    if (acc.getLastD default).num_gates = 0 then some acc
    else
      match synthesize_lut fun_spec dist max_tries fuel with
      | .model m => ladder_loop fun_spec max_tries fuel (acc ++ [m]) (dist + 1) lfuel
      | _ => none

/-- `AlsWorker::exact_synthesis_helper`, restricted to one distinct truth
table: the exact synthesis at distance 0 followed by the ladder loop at
distances 1, 2, …. -/
def exact_synthesis_helper (fun_spec : List Bool) (max_tries fuel lfuel : ℕ) :
    Option (List aig_model_t) :=
  match synthesize_lut fun_spec 0 max_tries fuel with
  | .model m => ladder_loop fun_spec max_tries fuel [m] 1 lfuel
  | _ => none

/-- Objective value of a solution (`ErSEvaluator::value_t`): the pair
(reliability loss, gate ratio); doubles modelled as rationals. -/
abbrev value_t := ℚ × ℚ

/-- An archive entry (`archive_entry_t`): the solution (as the list of chosen
catalogue indices per cell, with its catalogue key) and its objective value. -/
abbrev archive_entry_t := List (ℕ × ℕ) × value_t

/-- `ErSEvaluator::dominates` (identical in `Optimizer.cc`): `s1` dominates
`s2` at bias `arel_bias` iff
`(arel1 <= arel2 && gate1 < gate2) || (arel1 < arel2 && gate1 <= gate2)`
where `areli = fabs (arel_bias - si.second[0])` and `gatei = si.second[1]`. -/
def dominates (s1 s2 : archive_entry_t) (arel_bias : ℚ) : Bool :=
  (decide (|arel_bias - s1.2.1| ≤ |arel_bias - s2.2.1|) && decide (s1.2.2 < s2.2.2)) ||
    (decide (|arel_bias - s1.2.1| < |arel_bias - s2.2.1|) && decide (s1.2.2 ≤ s2.2.2))

/-- `Optimizer::erase_dominated`: `remove_if` over the archive with the
predicate "some archive member dominates this entry" (at the default bias 0).
The C++ predicate reads the archive being compacted, but domination depends
only on the objective values, which element moves preserve: an entry is
removed exactly when some member of the original archive dominates it, which
is the filter below. -/
def erase_dominated (arch : List archive_entry_t) : List archive_entry_t :=
  arch.filter (fun s_tick => !(arch.any (fun s => dominates s s_tick 0)))

/-- `Optimizer<E>::neighbor_of`, with the two `rng` draws (`target` position
and `coin_flip`) made explicit arguments.  `luts k` is the size of the
catalogue ladder for key `k`.  The element at iteration position
`s.length - target - 1` is moved: its index stays 0 for a single-entry
ladder, otherwise it moves by one, away from the boundary at 0 and at
`max`; every other element is copied unchanged. -/
def neighbor_of (luts : ℕ → ℕ) (s : List (ℕ × ℕ)) (target coin : ℕ) : List (ℕ × ℕ) :=
  s.enum.map (fun q =>
    if q.1 = s.length - target - 1 then
      let mx := luts q.2.1 - 1
      if mx = 0 then (q.2.1, 0)
      else
        (q.2.1,
          if coin = 1 then (if q.2.2 < mx then q.2.2 + 1 else q.2.2 - 1)
          else (if 0 < q.2.2 then q.2.2 - 1 else q.2.2 + 1))
    else q.2)

/-- Vertex kinds of the circuit graph (`graph.h`, `vertex_t`). -/
inductive vertex_type where
  | constant_zero : vertex_type
  | constant_one : vertex_type
  | primary_input : vertex_type
  | cell : vertex_type
deriving DecidableEq, Repr, Inhabited

/-- A vertex of the circuit graph: its type, the catalogue key of the
originating cell's LUT parameter (`get_lut_param`), and its in-edges as
(source vertex, `signal` index) pairs in stored order. -/
structure vertex_t where
  type : vertex_type
  lut : ℕ
  ins : List (ℕ × ℕ)
deriving DecidableEq, Repr, Inhabited

/-- The circuit graph, as its list of vertices in topological order
(the optimizer computes `vertices` by `topological_sort` before evaluating). -/
abbrev graph_t := List vertex_t

/-- The LUT catalogue, keyed by LUT parameter: the ladder of the achieved
`fun_spec`s of its models. -/
abbrev lut_catalogue_t := ℕ → List (List Bool)

/-- A solution: chosen catalogue index per vertex. -/
abbrev solution_t := ℕ → ℕ

/-- Out-degree of vertex `i`: number of edges with source `i`. -/
def out_degree (g : graph_t) (i : ℕ) : ℕ :=
  (g.map (fun v => v.ins.countP (fun e => e.1 == i))).sum

/-- `std::stoul (cell_input, nullptr, 2)`: the first concatenated in-edge
value is the most significant bit of the lookup index. -/
def bits_to_entry (bits : List Bool) : ℕ :=
  bits.foldl (fun acc b => 2 * acc + (if b then 1 else 0)) 0

/-- Forward pass of `ErSEvaluator::evaluate_graph`: `vals` holds the values
of the already processed vertices (the `cell_value` map), `ci` the next
input bit to consume; primary inputs take the next input bit, constants
their fixed value, a cell looks up the chosen catalogue entry's `fun_spec`
at the index concatenated from its in-edge source values; values of cells
with no out-edges are collected as the primary outputs. -/
def evaluate_graph_aux (g : graph_t) (catalogue : lut_catalogue_t) (solution : solution_t)
    (input : List Bool) : List (ℕ × vertex_t) → List Bool → ℕ → List Bool
  | [], _, _ => []
  | (idx, v) :: rest, vals, ci =>
    if v.ins.isEmpty then
      evaluate_graph_aux g catalogue solution input rest
        (vals ++ [if v.type = .primary_input then input.getD ci false
                  else decide (v.type = .constant_one)])
        (if v.type = .primary_input then ci + 1 else ci)
    else
      (if out_degree g idx = 0 then
        [((catalogue v.lut).getD (solution idx) []).getD
          (bits_to_entry (v.ins.map (fun e => vals.getD e.1 false))) false]
       else []) ++
        evaluate_graph_aux g catalogue solution input rest
          (vals ++ [((catalogue v.lut).getD (solution idx) []).getD
            (bits_to_entry (v.ins.map (fun e => vals.getD e.1 false))) false])
          ci

/-- `ErSEvaluator::evaluate_graph` over the topological order. -/
def evaluate_graph (g : graph_t) (catalogue : lut_catalogue_t) (solution : solution_t)
    (input : List Bool) : List Bool :=
  evaluate_graph_aux g catalogue solution input g.enum [] 0

/-- Rank of a primary-input vertex among the in-degree-0 primary-input
vertices preceding it in topological order: the input bit it consumes. -/
def pi_rank (g : graph_t) (idx : ℕ) : ℕ :=
  (g.take idx).countP (fun v => v.ins.isEmpty && v.type == .primary_input)

/-- Source vertex of the in-edge carrying signal index `sig`. -/
def source_by_signal (ins : List (ℕ × ℕ)) (sig : ℕ) : ℕ :=
  ((ins.find? (fun e => e.2 == sig)).getD (0, 0)).1

/-- Modelled from the spec (§4.3 GraphEvaluator): the value of a vertex,
defined recursively — primary inputs and constants receive their fixed
Boolean value, a cell's value indexes the chosen catalogue entry's
`fun_spec` at the lookup index concatenated from its in-edge source values
in `signal_index` order.  Recursion is by fuel; `spec_value` supplies
enough fuel for a topologically ordered graph. -/
def spec_value_fuel (g : graph_t) (catalogue : lut_catalogue_t) (solution : solution_t)
    (input : List Bool) : ℕ → ℕ → Bool
  | 0, _ => false
  | fuel + 1, idx =>
    match g.get? idx with
    | none => false
    | some v =>
      if v.ins.isEmpty then
        if v.type = .primary_input then input.getD (pi_rank g idx) false
        else decide (v.type = .constant_one)
      else
        ((catalogue v.lut).getD (solution idx) []).getD
          (bits_to_entry ((List.range v.ins.length).map
            (fun sig =>
              spec_value_fuel g catalogue solution input fuel (source_by_signal v.ins sig))))
          false

/-- Modelled from the spec (§4.3 GraphEvaluator): vertex value in a
topologically ordered graph. -/
def spec_value (g : graph_t) (catalogue : lut_catalogue_t) (solution : solution_t)
    (input : List Bool) (idx : ℕ) : Bool :=
  spec_value_fuel g catalogue solution input (idx + 1) idx

/-- A Z matrix (`Optimizer::z_matrix_t`, `Eigen::Matrix2d`), and the larger
intermediate matrices, as entry functions over rationals. -/
abbrev z_matrix_t := ℕ → ℕ → ℚ

/-- `Optimizer::z_in_degree_0`: constant zero `[[1,0],[0,0]]`, constant one
`[[0,0],[0,1]]`, primary input `[[0.5,0],[0,0.5]]` (the C++ throws on a
`CELL` vertex with no in-edges; modelled as the zero matrix). -/
def z_in_degree_0 (ty : vertex_type) : z_matrix_t :=
  fun i j =>
    match ty with
    | .constant_zero => if i = 0 ∧ j = 0 then 1 else 0
    | .constant_one => if i = 1 ∧ j = 1 then 1 else 0
    | .primary_input => if i = j ∧ i < 2 then 1 / 2 else 0
    | .cell => 0

/-- `Eigen::kroneckerProduct` with a 2×2 right factor. -/
def kron (a b : z_matrix_t) : z_matrix_t :=
  fun i j => a (i / 2) (j / 2) * b (i % 2) (j % 2)

/-- The ITM/PTM of a function specification: column 0 indicates output 0,
column 1 indicates output 1. -/
def truth_matrix (fun_spec : List Bool) : ℕ → ℕ → ℚ :=
  fun t c => if fun_spec.getD t false = decide (c = 1) then 1 else 0

/-- The I matrix of a cell: the left-fold of Kronecker products of the
in-edge Z matrices in signal order (`big_i`). -/
def big_i_of (zs : List z_matrix_t) : z_matrix_t :=
  match zs with
  | [] => fun _ _ => 0
  | z :: rest => rest.foldl kron z

/-- `Optimizer::z_in_degree_pos`: `(big_i * ptm)ᵀ * itm` where `itm`/`ptm`
are the truth matrices of the exact and the chosen catalogue entry, and the
matrix product contracts over the `2^k` rows. -/
def z_in_degree_pos (k : ℕ) (exact chosen : List Bool) (zs : List z_matrix_t) : z_matrix_t :=
  fun a b =>
    ((List.range (2 ^ k)).map (fun u =>
      ((List.range (2 ^ k)).map (fun t =>
        big_i_of zs u t * truth_matrix chosen t a * truth_matrix exact u b)).sum)).sum

/-- Forward accumulation of `Optimizer::output_reliability`: `zs` maps each
processed vertex to its Z matrix; a cell with no out-edges contributes
`reliability_from_z z = z (0,0) + z (1,1)` to the reliability list, in
topological order. -/
def output_reliability_aux (g : graph_t) (catalogue : lut_catalogue_t) (solution : solution_t) :
    List (ℕ × vertex_t) → List z_matrix_t → List ℚ
  | [], _ => []
  | (idx, v) :: rest, zs =>
    (if !v.ins.isEmpty && out_degree g idx == 0 then
      [z_in_degree_pos v.ins.length ((catalogue v.lut).getD 0 [])
          ((catalogue v.lut).getD (solution idx) [])
          ((List.range v.ins.length).map
            (fun sig => zs.getD (source_by_signal v.ins sig) (fun _ _ => 0))) 0 0 +
        z_in_degree_pos v.ins.length ((catalogue v.lut).getD 0 [])
          ((catalogue v.lut).getD (solution idx) [])
          ((List.range v.ins.length).map
            (fun sig => zs.getD (source_by_signal v.ins sig) (fun _ _ => 0))) 1 1]
     else []) ++
      output_reliability_aux g catalogue solution rest
        (zs ++ [if v.ins.isEmpty then z_in_degree_0 v.type
                else
                  z_in_degree_pos v.ins.length ((catalogue v.lut).getD 0 [])
                    ((catalogue v.lut).getD (solution idx) [])
                    ((List.range v.ins.length).map
                      (fun sig => zs.getD (source_by_signal v.ins sig) (fun _ _ => 0)))])

/-- `Optimizer::output_reliability`: the per-primary-output reliabilities of
a solution, computed by the closed-form Z-matrix propagation. -/
def output_reliability (g : graph_t) (catalogue : lut_catalogue_t) (solution : solution_t) :
    List ℚ :=
  output_reliability_aux g catalogue solution g.enum []

/-- `ErSEvaluator::circuit_reliability`: the fraction of sample vectors on
which the candidate matches the exact outputs, corrected by the one-sided
confidence term when the sample covers less than a tenth of the input space
(`10 * n_s < 2^num_inputs`); the corrected value is discarded for the raw
fraction when it exceeds 1.  The `sqrt` of the C++ is passed in as
`sqrt_fn`. -/
def circuit_reliability (sqrt_fn : ℚ → ℚ) (g : graph_t) (catalogue : lut_catalogue_t)
    (solution : solution_t) (test_vectors exact_outputs : List (List Bool))
    (num_inputs : ℕ) : ℚ :=
  let n_s : ℚ := (test_vectors.length : ℚ)
  let r_s : ℚ := (((test_vectors.zip exact_outputs).countP
    (fun q => evaluate_graph g catalogue solution q.1 == q.2) : ℕ) : ℚ) / n_s
  if 10 * test_vectors.length < 2 ^ num_inputs then
    let estimated_rel := r_s + (9 / 2 / n_s) * (1 + sqrt_fn (1 + (4 / 9) * n_s * r_s * (1 - r_s)))
    if 1 < estimated_rel then r_s else estimated_rel
  else r_s

/-- A matrix is diagonal on its `nn × nn` support. -/
def z_diag (z : z_matrix_t) (nn : ℕ) : Prop :=
  ∀ i j, i < nn → j < nn → i ≠ j → z i j = 0

/-- A matrix has trace 1 on its `nn × nn` support. -/
def z_trace_one (z : z_matrix_t) (nn : ℕ) : Prop :=
  ((List.range nn).map (fun i => z i i)).sum = 1

/-- The propagation invariant of the closed-form reliability evaluator in the
empty solution: a 2×2 Z matrix that is diagonal with trace 1. -/
def good_z (z : z_matrix_t) : Prop :=
  z 0 1 = 0 ∧ z 1 0 = 0 ∧ z 0 0 + z 1 1 = 1

/-- Concrete example data: the exact (distance-0) synthesis of the 2-input
AND truth table `0001`, as computed by `synthesize_lut`. -/
def and_lut_exact_model : aig_model_t :=
  { fun_spec := [false, false, false, true], num_inputs := 3, num_gates := 1,
    s := [(0, 0), (1, 1), (2, 2), (1, 2)],
    p := [(true, true), (true, true), (true, true), (true, true)],
    out := 3, out_p := true, is_valid := true }

/-- Concrete example data: the distance-1 zero-gate approximation of the
2-input AND truth table (the constant-zero column). -/
def and_lut_approx_model : aig_model_t :=
  { fun_spec := [false, false, false, false], num_inputs := 3, num_gates := 0,
    s := [(0, 0), (1, 1), (2, 2)],
    p := [(true, true), (true, true), (true, true)],
    out := 0, out_p := true, is_valid := true }

/-- Concrete example data: the catalogue ladder of the 2-input AND truth
table. -/
def and_lut_ladder : List aig_model_t := [and_lut_exact_model, and_lut_approx_model]

/-- C8: `synthesize_lut` fails with the `InvalidSpecification` error
(`std::invalid_argument`), before any solver or model-construction work, if
and only if the function specification is empty or its length is not a power
of two; for every non-empty power-of-two-length specification it does not
raise this error (for any distance, `max_tries` and search budget). -/
theorem C8_invalid_specification (fun_spec : List Bool) (out_distance max_tries fuel : ℕ) :
    synthesize_lut fun_spec out_distance max_tries fuel = .invalid_spec ↔
      (fun_spec = [] ∨ is_power_of_2 fun_spec.length = false) := by
  constructor
  · intro h
    by_cases hc : (fun_spec.isEmpty || !is_power_of_2 fun_spec.length) = true
    · simpa [List.isEmpty_iff, Bool.not_eq_true'] using hc
    · exfalso
      unfold synthesize_lut at h
      rw [if_neg hc] at h
      cases h1 : single_var fun_spec out_distance with
      | some sel => rw [h1] at h; exact synth_outcome.noConfusion h
      | none =>
        rw [h1] at h
        cases h2 : solver_loop fun_spec out_distance max_tries (ceil_log2 fun_spec.length) 0 fuel with
        | some m => rw [h2] at h; exact synth_outcome.noConfusion h
        | none => rw [h2] at h; exact synth_outcome.noConfusion h
  · intro h
    unfold synthesize_lut
    rw [if_pos]
    simpa [List.isEmpty_iff, Bool.not_eq_true'] using h

/-- C7: the bias-parameterized domination relation of `ErSEvaluator` is
antisymmetric: `dominates s1 s2 bias` and `dominates s2 s1 bias` are never
simultaneously true, for any two entries and any bias. -/
theorem C7_dominates_antisymmetric (s1 s2 : archive_entry_t) (arel_bias : ℚ) :
    (dominates s1 s2 arel_bias && dominates s2 s1 arel_bias) = false := by
  rw [Bool.eq_false_iff]
  intro h
  simp only [dominates, Bool.and_eq_true, Bool.or_eq_true, decide_eq_true_eq] at h
  obtain ⟨h1, h2⟩ := h
  rcases h1 with ⟨ha, hg⟩ | ⟨ha, hg⟩ <;> rcases h2 with ⟨hb, hg2⟩ | ⟨hb, hg2⟩ <;> linarith

/-- C5: after `erase_dominated`, the archive contains no two entries (distinct
or not) such that one dominates the other at bias 0. -/
theorem C5_erase_dominated_non_domination (arch : List archive_entry_t)
    (a b : archive_entry_t) (ha : a ∈ erase_dominated arch) (hb : b ∈ erase_dominated arch) :
    dominates a b 0 = false := by
  obtain ⟨hamem, -⟩ := List.mem_filter.mp ha
  obtain ⟨-, hbpred⟩ := List.mem_filter.mp hb
  rw [Bool.not_eq_true', List.any_eq_false] at hbpred
  exact Bool.not_eq_true _ |>.mp (hbpred a hamem)

theorem C5_erase_dominated_non_domination_witness :
    dominates ([], ((0 : ℚ), (1 : ℚ))) ([], ((1 : ℚ), (1 / 2 : ℚ))) 0 = false := by
  have harch : erase_dominated [([], ((0 : ℚ), (1 : ℚ))), ([], ((1 : ℚ), (1 / 2 : ℚ)))] =
      [([], ((0 : ℚ), (1 : ℚ))), ([], ((1 : ℚ), (1 / 2 : ℚ)))] := by
    norm_num [erase_dominated, dominates, List.filter, List.any]
  exact C5_erase_dominated_non_domination
    [([], ((0 : ℚ), (1 : ℚ))), ([], ((1 : ℚ), (1 / 2 : ℚ)))]
    ([], ((0 : ℚ), (1 : ℚ))) ([], ((1 : ℚ), (1 / 2 : ℚ)))
    (by rw [harch]; simp) (by rw [harch]; simp)

/-- C6: `neighbor_of` changes exactly the one randomly chosen position
`s.length - target - 1` of the solution: a cell with a single-entry ladder
stays at index 0; otherwise the chosen cell's catalogue index moves by
exactly one (up or down, the direction reflected inward at the boundaries of
`[0, ladder_size - 1]`), remains within that range, and always changes;
every other cell's entry is unchanged. -/
theorem C6_neighbor_of_local_move (luts : ℕ → ℕ) (s : List (ℕ × ℕ)) (target coin : ℕ)
    (htarget : target < s.length)
    (hwf : (s.getD (s.length - target - 1) (0, 0)).2 ≤
      luts (s.getD (s.length - target - 1) (0, 0)).1 - 1) :
    (neighbor_of luts s target coin).length = s.length ∧
    (∀ j, j < s.length → j ≠ s.length - target - 1 →
      (neighbor_of luts s target coin).getD j (0, 0) = s.getD j (0, 0)) ∧
    ((neighbor_of luts s target coin).getD (s.length - target - 1) (0, 0)).1 =
      (s.getD (s.length - target - 1) (0, 0)).1 ∧
    (luts (s.getD (s.length - target - 1) (0, 0)).1 = 1 →
      ((neighbor_of luts s target coin).getD (s.length - target - 1) (0, 0)).2 = 0) ∧
    (2 ≤ luts (s.getD (s.length - target - 1) (0, 0)).1 →
      (((neighbor_of luts s target coin).getD (s.length - target - 1) (0, 0)).2 =
          (s.getD (s.length - target - 1) (0, 0)).2 + 1 ∨
        ((neighbor_of luts s target coin).getD (s.length - target - 1) (0, 0)).2 + 1 =
          (s.getD (s.length - target - 1) (0, 0)).2) ∧
      ((neighbor_of luts s target coin).getD (s.length - target - 1) (0, 0)).2 ≠
        (s.getD (s.length - target - 1) (0, 0)).2 ∧
      ((neighbor_of luts s target coin).getD (s.length - target - 1) (0, 0)).2 ≤
        luts (s.getD (s.length - target - 1) (0, 0)).1 - 1) := by
  have hp : s.length - target - 1 < s.length := by omega
  have hget : ∀ j, j < s.length →
      (neighbor_of luts s target coin).getD j (0, 0) =
        if j = s.length - target - 1 then
          (if luts (s.getD j (0, 0)).1 - 1 = 0 then ((s.getD j (0, 0)).1, 0)
           else
             ((s.getD j (0, 0)).1,
               if coin = 1 then
                 (if (s.getD j (0, 0)).2 < luts (s.getD j (0, 0)).1 - 1 then
                   (s.getD j (0, 0)).2 + 1
                 else (s.getD j (0, 0)).2 - 1)
               else
                 (if 0 < (s.getD j (0, 0)).2 then (s.getD j (0, 0)).2 - 1
                 else (s.getD j (0, 0)).2 + 1)))
        else s.getD j (0, 0) := by
    intro j hj
    unfold neighbor_of
    rw [List.getD_eq_getElem?_getD, List.getElem?_map, List.getElem?_enum,
      List.getElem?_eq_getElem hj]
    simp only [Option.map_some', Option.getD_some, List.getD_eq_getElem?_getD,
      List.getElem?_eq_getElem hj]
  obtain ⟨el, hel⟩ : ∃ el, s.getD (s.length - target - 1) (0, 0) = el := ⟨_, rfl⟩
  have hmoved := hget (s.length - target - 1) hp
  rw [if_pos rfl, hel] at hmoved
  rw [hel] at hwf
  refine ⟨by simp [neighbor_of], ?_, ?_, ?_, ?_⟩
  · intro j hj hne
    rw [hget j hj, if_neg hne]
  · rw [hmoved, hel]
    split <;> rfl
  · intro h1
    rw [hel] at h1
    have h0 : luts el.1 - 1 = 0 := by omega
    rw [hmoved, if_pos h0]
  · intro h2
    rw [hel] at h2
    rw [hel]
    have hmx : ¬(luts el.1 - 1 = 0) := by omega
    rw [hmoved, if_neg hmx]
    by_cases hc : coin = 1 <;>
      by_cases hb : el.2 < luts el.1 - 1 <;>
      by_cases hz : 0 < el.2 <;>
      simp [hc, hb, hz] <;> omega

theorem C6_neighbor_of_local_move_witness :
    (neighbor_of (fun _ => 3) [(5, 1), (6, 0)] 0 1).length = 2 ∧
    (neighbor_of (fun _ => 3) [(5, 1), (6, 0)] 0 1).getD 0 (0, 0) = (5, 1) := by
  refine ⟨(C6_neighbor_of_local_move (fun _ => 3) [(5, 1), (6, 0)] 0 1
    (by decide) (by decide)).1, ?_⟩
  exact (C6_neighbor_of_local_move (fun _ => 3) [(5, 1), (6, 0)] 0 1
    (by decide) (by decide)).2.1 0 (by decide) (by decide)


theorem bit_width_aux_lt (fuel : ℕ) : ∀ m, m ≤ fuel → m < 2 ^ bit_width_aux fuel m := by
  induction fuel with
  | zero => intro m hm; interval_cases m; simp [bit_width_aux]
  | succ f ih =>
    intro m hm
    unfold bit_width_aux
    by_cases hz : m = 0
    · simp [hz]
    · rw [if_neg hz]
      have h2 : m / 2 ≤ f := by omega
      have := ih (m / 2) h2
      have hp : 2 ^ (bit_width_aux f (m / 2) + 1) = 2 * 2 ^ bit_width_aux f (m / 2) := by ring
      omega

theorem bit_width_aux_le (fuel : ℕ) : ∀ m, 0 < m → m ≤ fuel → 2 ^ bit_width_aux fuel m ≤ 2 * m := by
  induction fuel with
  | zero => intro m hm h; omega
  | succ f ih =>
    intro m hm hle
    unfold bit_width_aux
    rw [if_neg (by omega)]
    by_cases hz : m / 2 = 0
    · have : bit_width_aux f (m / 2) = 0 := by
        cases f <;> simp [hz, bit_width_aux]
      rw [this]
      omega
    · have h2 : m / 2 ≤ f := by omega
      have := ih (m / 2) (by omega) h2
      have hp : 2 ^ (bit_width_aux f (m / 2) + 1) = 2 * 2 ^ bit_width_aux f (m / 2) := by ring
      omega

theorem land_self (m : ℕ) : m &&& m = m :=
  Nat.eq_of_testBit_eq (fun k => by rw [Nat.testBit_land, Bool.and_self])

theorem land_pred_eq_zero_pow2 : ∀ x, x ≠ 0 → x &&& (x - 1) = 0 → ∃ k, x = 2 ^ k := by
  intro x
  induction x using Nat.strong_induction_on with
  | _ x ih =>
    intro hx h
    rcases Nat.even_or_odd x with he | ho
    · obtain ⟨m, hm⟩ := he
      have hxm : x = 2 * m := by omega
      have hm0 : m ≠ 0 := by omega
      have hbit : x = Nat.bit false m := by simp [Nat.bit, hxm]
      have hbit2 : x - 1 = Nat.bit true (m - 1) := by simp [Nat.bit]; omega
      rw [hbit2, hbit, Nat.land_bit] at h
      have : m &&& (m - 1) = 0 := by
        simp [Nat.bit] at h
        omega
      obtain ⟨k, hk⟩ := ih m (by omega) hm0 this
      exact ⟨k + 1, by rw [hxm, hk]; ring⟩
    · obtain ⟨m, hm⟩ := ho
      by_cases hm0 : m = 0
      · exact ⟨0, by omega⟩
      · exfalso
        have hbit : x = Nat.bit true m := by simp [Nat.bit]; omega
        have hbit2 : x - 1 = Nat.bit false m := by simp [Nat.bit]; omega
        rw [hbit2, hbit, Nat.land_bit] at h
        rw [land_self] at h; simp [Nat.bit] at h
        omega

theorem is_power_of_2_spec (x : ℕ) (h : is_power_of_2 x = true) : ∃ k, x = 2 ^ k := by
  unfold is_power_of_2 at h
  rw [Bool.and_eq_true, bne_iff_ne, beq_iff_eq] at h
  exact land_pred_eq_zero_pow2 x h.1 h.2

theorem ceil_log2_pow (k : ℕ) : ceil_log2 (2 ^ k) = k := by
  cases k with
  | zero => simp [ceil_log2]
  | succ j =>
    have hpow : 1 < 2 ^ (j + 1) := Nat.one_lt_two_pow_iff.mpr (by omega)
    unfold ceil_log2
    rw [if_pos hpow]
    have h1 := bit_width_aux_lt (2 ^ (j + 1) - 1) (2 ^ (j + 1) - 1) le_rfl
    have h2 := bit_width_aux_le (2 ^ (j + 1) - 1) (2 ^ (j + 1) - 1)
      (by omega) le_rfl
    set w := bit_width_aux (2 ^ (j + 1) - 1) (2 ^ (j + 1) - 1) with hw
    have hle1 : 2 ^ (j + 1) ≤ 2 ^ w := by omega
    have hle2 : 2 ^ w ≤ 2 ^ (j + 1) := by
      have : 2 * (2 ^ (j + 1) - 1) < 2 * 2 ^ (j + 1) := by
        have : 0 < 2 ^ (j + 1) := by positivity
        omega
      have h3 : 2 ^ w < 2 ^ ((j + 1) + 1) := by
        calc 2 ^ w ≤ 2 * (2 ^ (j + 1) - 1) := h2
        _ < 2 ^ ((j + 1) + 1) := by rw [pow_succ]; omega
      exact Nat.pow_le_pow_right (by norm_num) (by
        by_contra hcon
        have : (j + 1) + 1 ≤ w := by omega
        have := Nat.pow_le_pow_right (show 1 ≤ 2 by norm_num) this
        omega)
    have : 2 ^ w = 2 ^ (j + 1) := le_antisymm hle2 hle1
    have := Nat.pow_right_injective (le_refl 2) this
    omega

theorem pow_ceil_log2_of_pow2 (x : ℕ) (h : is_power_of_2 x = true) :
    2 ^ ceil_log2 x = x := by
  obtain ⟨k, rfl⟩ := is_power_of_2_spec x h
  rw [ceil_log2_pow]

theorem truth_table_column_length (i n : ℕ) (p : Bool) :
    (truth_table_column i n p).length = 2 ^ n := by
  simp [truth_table_column]

theorem truth_table_column_getD (i n : ℕ) (p : Bool) (t : ℕ) (ht : t < 2 ^ n) :
    (truth_table_column i n p).getD t false = (truth_table_value i t == p) := by
  unfold truth_table_column
  rw [List.getD_eq_getElem?_getD, List.getElem?_map, List.getElem?_range ht]
  rfl

theorem hamming_distance_eq_zero : ∀ {a b : List Bool}, a.length = b.length →
    hamming_distance a b = 0 → a = b := by
  intro a
  induction a with
  | nil => intro b h1 _; exact (List.length_eq_zero.mp h1.symm).symm
  | cons x xs ih =>
    intro b h1 h2
    cases b with
    | nil => simp at h1
    | cons y ys =>
      unfold hamming_distance at h2
      rw [List.zip_cons_cons, List.countP_cons] at h2
      have hxy : x = y := by
        by_contra hne
        simp [hne] at h2
      have htail : hamming_distance xs ys = 0 := by
        unfold hamming_distance
        omega
      rw [hxy, ih (by simpa using h1) htail]

theorem single_var_aux_eq_none (fun_spec : List Bool) (d n : ℕ) (l : List ℕ) :
    single_var_aux fun_spec d n l = none ↔
      ∀ i ∈ l, ∀ p : Bool, d < hamming_distance fun_spec (truth_table_column i n p) := by
  induction l with
  | nil => simp [single_var_aux]
  | cons i rest ih =>
    unfold single_var_aux
    by_cases h1 : hamming_distance fun_spec (truth_table_column i n true) ≤ d
    · simp only [if_pos h1]
      constructor
      · intro h; exact absurd h (by simp)
      · intro h; exfalso; have := h i (by simp) true; omega
    · rw [if_neg h1]
      by_cases h2 : hamming_distance fun_spec (truth_table_column i n false) ≤ d
      · simp only [if_pos h2]
        constructor
        · intro h; exact absurd h (by simp)
        · intro h; exfalso; have := h i (by simp) false; omega
      · rw [if_neg h2, ih]
        constructor
        · intro h j hj p
          rcases List.mem_cons.mp hj with rfl | hj2
          · cases p
            · omega
            · omega
          · exact h j hj2 p
        · intro h j hj p
          exact h j (by simp [hj]) p

theorem single_var_aux_sound (fun_spec : List Bool) (d n : ℕ) (l : List ℕ) (v : ℕ)
    (h : single_var_aux fun_spec d n l = some v) :
    v / 2 ∈ l ∧
      hamming_distance fun_spec (truth_table_column (v / 2) n (v % 2 == 0)) ≤ d := by
  induction l with
  | nil => exact absurd h (by simp [single_var_aux])
  | cons i rest ih =>
    unfold single_var_aux at h
    by_cases h1 : hamming_distance fun_spec (truth_table_column i n true) ≤ d
    · rw [if_pos h1] at h
      have hv : v = i * 2 := by injection h; omega
      subst hv
      constructor
      · simp [Nat.mul_div_cancel]
      · have hdiv : i * 2 / 2 = i := by omega
        have hmod : (i * 2 % 2 == 0) = true := by
          have : i * 2 % 2 = 0 := by omega
          simp [this]
        rw [hdiv, hmod]
        exact h1
    · rw [if_neg h1] at h
      by_cases h2 : hamming_distance fun_spec (truth_table_column i n false) ≤ d
      · rw [if_pos h2] at h
        have hv : v = i * 2 + 1 := by injection h; omega
        subst hv
        have hdiv : (i * 2 + 1) / 2 = i := by omega
        have hmod : ((i * 2 + 1) % 2 == 0) = false := by
          have : (i * 2 + 1) % 2 = 1 := by omega
          simp [this]
        rw [hdiv, hmod]
        exact ⟨by simp, h2⟩
      · rw [if_neg h2] at h
        obtain ⟨hmem, hham⟩ := ih h
        exact ⟨by simp [hmem], hham⟩

/-- C1: when some input column (index 0 is the constant, then each primary input,
either polarity) lies within hamming distance `out_distance` of the requested truth
table, `synthesize_lut` takes the single-variable shortcut: it returns a zero-gate
valid model without ever invoking the solver, whose recorded `fun_spec` is the
selected column (the first match scanning index 0..n with positive polarity first)
and equals the model's single-node evaluation exactly; that recorded `fun_spec` is
within distance `out_distance` of the requested table but, contrary to the claim,
need not equal it (see the counterexample theorem). -/
theorem C1_single_var_shortcut (fun_spec : List Bool) (out_distance max_tries fuel : ℕ)
    (hpow : is_power_of_2 fun_spec.length = true)
    (i : ℕ) (p : Bool) (hi : i ≤ ceil_log2 fun_spec.length)
    (hham : hamming_distance fun_spec
      (truth_table_column i (ceil_log2 fun_spec.length) p) ≤ out_distance) :
    ∃ sel, single_var fun_spec out_distance = some sel ∧
      synthesize_lut fun_spec out_distance max_tries fuel =
        .model (shortcut_model (ceil_log2 fun_spec.length) sel) ∧
      (shortcut_model (ceil_log2 fun_spec.length) sel).num_gates = 0 ∧
      (shortcut_model (ceil_log2 fun_spec.length) sel).is_valid = true ∧
      (shortcut_model (ceil_log2 fun_spec.length) sel).out = sel / 2 ∧
      sel / 2 ≤ ceil_log2 fun_spec.length ∧
      (shortcut_model (ceil_log2 fun_spec.length) sel).fun_spec =
        truth_table_column (sel / 2) (ceil_log2 fun_spec.length) (sel % 2 == 0) ∧
      hamming_distance fun_spec (shortcut_model (ceil_log2 fun_spec.length) sel).fun_spec ≤
        out_distance ∧
      (∀ t, t < 2 ^ ceil_log2 fun_spec.length →
        eval_model (shortcut_model (ceil_log2 fun_spec.length) sel) t =
          (shortcut_model (ceil_log2 fun_spec.length) sel).fun_spec.getD t false) ∧
      (∀ max_tries' fuel', synthesize_lut fun_spec out_distance max_tries' fuel' =
        synthesize_lut fun_spec out_distance max_tries fuel) := by
  have hne : fun_spec.length ≠ 0 := by
    intro h0
    rw [h0] at hpow
    simp [is_power_of_2] at hpow
  have hcond : (fun_spec.isEmpty || !is_power_of_2 fun_spec.length) = false := by
    rw [Bool.or_eq_false_iff]
    constructor
    · rw [List.isEmpty_eq_false_iff_exists_mem]
      cases fun_spec with
      | nil => simp at hne
      | cons x xs => exact ⟨x, by simp⟩
    · simp [hpow]
  have hsv : single_var fun_spec out_distance ≠ none := by
    intro hnone
    unfold single_var at hnone
    rw [single_var_aux_eq_none] at hnone
    have := hnone i (List.mem_range.mpr (by omega)) p
    omega
  obtain ⟨sel, hsel⟩ : ∃ sel, single_var fun_spec out_distance = some sel := by
    cases hv : single_var fun_spec out_distance with
    | none => exact absurd hv hsv
    | some sel => exact ⟨sel, rfl⟩
  have hsound := single_var_aux_sound fun_spec out_distance (ceil_log2 fun_spec.length)
    (List.range (ceil_log2 fun_spec.length + 1)) sel hsel
  have hout : sel / 2 ≤ ceil_log2 fun_spec.length := by
    have := List.mem_range.mp hsound.1
    omega
  have hsynth : synthesize_lut fun_spec out_distance max_tries fuel =
      .model (shortcut_model (ceil_log2 fun_spec.length) sel) := by
    unfold synthesize_lut
    rw [hcond]
    simp only [Bool.false_eq_true, if_false, hsel]
  refine ⟨sel, hsel, hsynth, rfl, rfl, rfl, hout, rfl, ?_, ?_, ?_⟩
  · show hamming_distance fun_spec
      (truth_table_column (sel / 2) (ceil_log2 fun_spec.length) (sel % 2 == 0)) ≤ out_distance
    exact hsound.2
  · intro t ht
    have hid : ∀ a b : Bool, (a ^^ !b) = (a == b) := by decide
    show (eval_model_node (shortcut_model (ceil_log2 fun_spec.length) sel) t (sel / 2 + 1)
        (sel / 2) ^^ !(sel % 2 == 0)) =
      (shortcut_model (ceil_log2 fun_spec.length) sel).fun_spec.getD t false
    unfold eval_model_node
    rw [if_pos (show sel / 2 < (shortcut_model (ceil_log2 fun_spec.length) sel).num_inputs by
      show sel / 2 < ceil_log2 fun_spec.length + 1
      omega)]
    show (truth_table_value (sel / 2) t ^^ !(sel % 2 == 0)) =
      (truth_table_column (sel / 2) (ceil_log2 fun_spec.length) (sel % 2 == 0)).getD t false
    rw [truth_table_column_getD _ _ _ _ ht, hid]
  · intro max_tries' fuel'
    unfold synthesize_lut
    rw [hcond]
    simp only [Bool.false_eq_true, if_false, hsel]

theorem C1_single_var_shortcut_counterexample :
    hamming_distance [true, true, false, true]
      (truth_table_column 1 (ceil_log2 ([true, true, false, true] : List Bool).length) true) ≤ 1 ∧
    synthesize_lut [true, true, false, true] 1 20 20 = .model (shortcut_model 2 1) ∧
    (shortcut_model 2 1).num_gates = 0 ∧
    (shortcut_model 2 1).fun_spec ≠ [true, true, false, true] := by
  refine ⟨by decide, by decide, by decide, by decide⟩

theorem C1_single_var_shortcut_witness :
    ∃ sel, single_var [false, false, false, true] 1 = some sel ∧
      synthesize_lut [false, false, false, true] 1 20 20 =
        .model (shortcut_model (ceil_log2 ([false, false, false, true] : List Bool).length) sel) ∧
      (shortcut_model (ceil_log2 ([false, false, false, true] : List Bool).length) sel).num_gates
        = 0 ∧
      (shortcut_model (ceil_log2 ([false, false, false, true] : List Bool).length) sel).is_valid
        = true ∧
      (shortcut_model (ceil_log2 ([false, false, false, true] : List Bool).length) sel).out =
        sel / 2 ∧
      sel / 2 ≤ ceil_log2 ([false, false, false, true] : List Bool).length ∧
      (shortcut_model (ceil_log2 ([false, false, false, true] : List Bool).length) sel).fun_spec =
        truth_table_column (sel / 2) (ceil_log2 ([false, false, false, true] : List Bool).length)
          (sel % 2 == 0) ∧
      hamming_distance [false, false, false, true]
        (shortcut_model (ceil_log2 ([false, false, false, true] : List Bool).length) sel).fun_spec
          ≤ 1 ∧
      (∀ t, t < 2 ^ ceil_log2 ([false, false, false, true] : List Bool).length →
        eval_model (shortcut_model (ceil_log2 ([false, false, false, true] : List Bool).length)
          sel) t =
          (shortcut_model
            (ceil_log2 ([false, false, false, true] : List Bool).length) sel).fun_spec.getD t
              false) ∧
      (∀ max_tries' fuel', synthesize_lut [false, false, false, true] 1 max_tries' fuel' =
        synthesize_lut [false, false, false, true] 1 20 20) :=
  C1_single_var_shortcut [false, false, false, true] 1 20 20 (by decide) 0 true (by decide)
    (by decide)


theorem gates_choices_length (n : ℕ) : ∀ k gs, gs ∈ gates_choices n k → gs.length = k := by
  intro k
  induction k with
  | zero => intro gs h; simp [gates_choices] at h; simp [h]
  | succ j ih =>
    intro gs h
    simp only [gates_choices, List.mem_flatMap, List.mem_map] at h
    obtain ⟨gs0, hgs0, g, _, rfl⟩ := h
    simp [ih gs0 hgs0]

theorem find_model_some (fun_spec : List Bool) (d n k : ℕ) (q : List gate_t × Bool)
    (h : find_model fun_spec d n k = some q) :
    q.1.length = k ∧ check_struct n q.1 = true ∧ check_sem fun_spec d n q.1 q.2 = true := by
  have hmem := List.mem_of_find?_eq_some h
  have hpred := List.find?_some h
  rw [Bool.and_eq_true] at hpred
  simp only [List.mem_flatMap, List.mem_cons] at hmem
  obtain ⟨gs, hgs, hq⟩ := hmem
  have hq1 : q.1 = gs := by
    rcases hq with h1 | h1 | h1
    · rw [h1]
    · rw [h1]
    · exact absurd h1 (List.not_mem_nil q)
  refine ⟨?_, hpred.1, hpred.2⟩
  rw [hq1]
  exact gates_choices_length n k gs hgs

theorem check_sem_mono (fun_spec : List Bool) (n : ℕ) (gs : List gate_t) (op : Bool)
    (d : ℕ) (hd : d + 1 < 256) (h : check_sem fun_spec d n gs op = true) :
    check_sem fun_spec (d + 1) n gs op = true := by
  unfold check_sem at h ⊢
  rw [if_neg (by omega)]
  by_cases h0 : d = 0
  · rw [h0] at h
    rw [if_pos rfl] at h
    rw [List.all_eq_true] at h
    have hcount : (List.range fun_spec.length).countP
        (fun t => node_out n t gs op != fun_spec.getD t false) = 0 := by
      rw [List.countP_eq_zero]
      intro t ht
      have := h t ht
      simp only [beq_iff_eq] at this
      simp [this]
    rw [hcount]
    simp
  · rw [if_neg h0] at h
    rw [decide_eq_true_eq] at h
    rw [decide_eq_true_eq]
    have hdm : d % 256 = d := Nat.mod_eq_of_lt (by omega)
    have hdm1 : (d + 1) % 256 = d + 1 := Nat.mod_eq_of_lt hd
    omega

theorem sat_at_mono (fun_spec : List Bool) (n k d : ℕ) (hd : d + 1 < 256)
    (h : sat_at fun_spec d n k = true) : sat_at fun_spec (d + 1) n k = true := by
  unfold sat_at find_model at h ⊢
  rw [List.find?_isSome] at h ⊢
  obtain ⟨q, hq, hpred⟩ := h
  rw [Bool.and_eq_true] at hpred
  refine ⟨q, hq, ?_⟩
  rw [Bool.and_eq_true]
  exact ⟨hpred.1, check_sem_mono fun_spec n q.1 q.2 d hd hpred.2⟩

theorem model_of_fun_spec_exact (fun_spec : List Bool) (n : ℕ) (gs : List gate_t) (op : Bool)
    (hsem : check_sem fun_spec 0 n gs op = true) :
    (model_of fun_spec n gs op).fun_spec = fun_spec := by
  unfold check_sem at hsem
  rw [if_pos rfl, List.all_eq_true] at hsem
  show (List.range fun_spec.length).map (fun t => node_out n t gs op) = fun_spec
  apply List.ext_getElem (by simp)
  intro i h1 h2
  simp only [List.getElem_map, List.getElem_range]
  have := hsem i (by simpa using h2)
  rw [beq_iff_eq] at this
  rw [this, List.getD_eq_getElem?_getD, List.getElem?_eq_getElem h2]
  rfl

theorem solver_loop_success (fun_spec : List Bool) (d mt n : ℕ) :
    ∀ fuel k m, solver_loop fun_spec d mt n k fuel = some m → m.is_valid = true →
      sat_at fun_spec d n m.num_gates = true ∧ k ≤ m.num_gates ∧
      (∃ gs op, find_model fun_spec d n m.num_gates = some (gs, op) ∧
        m = model_of fun_spec n gs op) ∧
      (∀ j, k ≤ j → j < m.num_gates → sat_at fun_spec d n j = false) := by
  intro fuel
  induction fuel with
  | zero => intro k m h; exact absurd h (by simp [solver_loop])
  | succ f ih =>
    intro k m h hv
    unfold solver_loop at h
    cases hf : find_model fun_spec d n k with
    | some q =>
      rw [hf] at h
      injection h with h
      obtain ⟨hlen, -, -⟩ := find_model_some fun_spec d n k q hf
      have hng : m.num_gates = k := by rw [← h]; exact hlen
      subst h
      refine ⟨?_, by omega, ⟨q.1, q.2, by rw [hng, hf], rfl⟩, ?_⟩
      · unfold sat_at
        rw [hng, hf]
        rfl
      · intro j hj1 hj2
        omega
    | none =>
      rw [hf] at h
      by_cases hcond : 0 < d ∧ mt ≤ k
      · rw [if_pos hcond] at h
        injection h with h
        rw [← h] at hv
        exact absurd hv (by simp [exhausted_model])
      · rw [if_neg hcond] at h
        obtain ⟨hsat, hk, hex, hmin⟩ := ih (k + 1) m h hv
        refine ⟨hsat, by omega, hex, ?_⟩
        intro j hj1 hj2
        by_cases hjk : j = k
        · subst hjk
          unfold sat_at
          rw [hf]
          rfl
        · exact hmin j (by omega) hj2

theorem single_var_mono (fun_spec : List Bool) (d : ℕ)
    (h : single_var fun_spec d ≠ none) : single_var fun_spec (d + 1) ≠ none := by
  intro hnone
  apply h
  unfold single_var at hnone ⊢
  rw [single_var_aux_eq_none] at hnone ⊢
  intro i hi p
  have := hnone i hi p
  omega

theorem synthesize_model_main (fun_spec : List Bool) (d mt fuel : ℕ) (m : aig_model_t)
    (hpow : is_power_of_2 fun_spec.length = true)
    (h : synthesize_lut fun_spec d mt fuel = .model m) (hv : m.is_valid = true) :
    (single_var fun_spec d ≠ none ∧ m.num_gates = 0) ∨
    (single_var fun_spec d = none ∧
      sat_at fun_spec d (ceil_log2 fun_spec.length) m.num_gates = true ∧
      (∀ j, j < m.num_gates → sat_at fun_spec d (ceil_log2 fun_spec.length) j = false)) := by
  have hne : fun_spec.length ≠ 0 := by
    intro h0; rw [h0] at hpow; simp [is_power_of_2] at hpow
  have hcond : (fun_spec.isEmpty || !is_power_of_2 fun_spec.length) = false := by
    rw [Bool.or_eq_false_iff]
    refine ⟨?_, by simp [hpow]⟩
    rw [List.isEmpty_eq_false_iff_exists_mem]
    cases fun_spec with
    | nil => simp at hne
    | cons x xs => exact ⟨x, by simp⟩
  unfold synthesize_lut at h
  rw [hcond] at h
  simp only [Bool.false_eq_true, if_false] at h
  cases hsv : single_var fun_spec d with
  | some sel =>
    rw [hsv] at h
    injection h with h
    left
    refine ⟨by simp [hsv], ?_⟩
    rw [← h]
    rfl
  | none =>
    rw [hsv] at h
    right
    cases hsl : solver_loop fun_spec d mt (ceil_log2 fun_spec.length) 0 fuel with
    | none => rw [hsl] at h; exact absurd h (by simp)
    | some m2 =>
      rw [hsl] at h
      injection h with h
      subst h
      obtain ⟨hsat, -, -, hmin⟩ :=
        solver_loop_success fun_spec d mt (ceil_log2 fun_spec.length) fuel 0 m2 hsl hv
      exact ⟨rfl, hsat, fun j hj => hmin j (by omega) hj⟩

theorem ladder_step_gates (fun_spec : List Bool) (mt fuel d : ℕ) (m1 m2 : aig_model_t)
    (hpow : is_power_of_2 fun_spec.length = true) (hd : d + 1 < 256)
    (h1 : synthesize_lut fun_spec d mt fuel = .model m1)
    (h2 : synthesize_lut fun_spec (d + 1) mt fuel = .model m2)
    (hv1 : m1.is_valid = true) (hv2 : m2.is_valid = true) :
    m2.num_gates ≤ m1.num_gates := by
  rcases synthesize_model_main fun_spec d mt fuel m1 hpow h1 hv1 with ⟨hsv1, hg1⟩ | ⟨hsv1, hsat1, _⟩
  · have hsv2 := single_var_mono fun_spec d hsv1
    rcases synthesize_model_main fun_spec (d + 1) mt fuel m2 hpow h2 hv2 with
      ⟨-, hg2⟩ | ⟨hsv2', -, -⟩
    · omega
    · exact absurd hsv2' hsv2
  · rcases synthesize_model_main fun_spec (d + 1) mt fuel m2 hpow h2 hv2 with
      ⟨-, hg2⟩ | ⟨-, -, hmin2⟩
    · omega
    · by_contra hcon
      have hlt : m1.num_gates < m2.num_gates := by omega
      have hf := hmin2 m1.num_gates hlt
      have hs := sat_at_mono fun_spec (ceil_log2 fun_spec.length) m1.num_gates d hd hsat1
      rw [hf] at hs
      exact Bool.noConfusion hs

theorem list_getD_append_left {α : Type} (l1 l2 : List α) (j : ℕ) (d : α) (h : j < l1.length) :
    (l1 ++ l2).getD j d = l1.getD j d := by
  rw [List.getD_eq_getElem?_getD, List.getD_eq_getElem?_getD, List.getElem?_append_left h]

theorem list_getLastD_eq_getD {α : Type} (l : List α) (d : α) (h : l ≠ []) :
    l.getLastD d = l.getD (l.length - 1) d := by
  rw [List.getLastD_eq_getLast?, List.getLast?_eq_getElem?, List.getD_eq_getElem?_getD]

theorem ladder_loop_sound (fun_spec : List Bool) (mt fuel : ℕ) :
    ∀ lfuel acc dist L, acc ≠ [] →
      ladder_loop fun_spec mt fuel acc dist lfuel = some L →
      (∃ tail, L = acc ++ tail ∧
        ∀ j, j < tail.length →
          synthesize_lut fun_spec (dist + j) mt fuel = .model (tail.getD j default)) ∧
      (L.getLastD default).num_gates = 0 ∧
      (∀ j, acc.length - 1 ≤ j → j + 1 < L.length → (L.getD j default).num_gates ≠ 0) := by
  intro lfuel
  induction lfuel with
  | zero =>
    intro acc dist L hne h
    unfold ladder_loop at h
    by_cases h0 : (acc.getLastD default).num_gates = 0
    · rw [if_pos h0] at h
      injection h with h
      subst h
      exact ⟨⟨[], by simp, by intro j hj; simp at hj⟩, h0, by intro j h1 h2; omega⟩
    · rw [if_neg h0] at h
      exact absurd h (by simp)
  | succ lf ih =>
    intro acc dist L hne h
    unfold ladder_loop at h
    by_cases h0 : (acc.getLastD default).num_gates = 0
    · rw [if_pos h0] at h
      injection h with h
      subst h
      exact ⟨⟨[], by simp, by intro j hj; simp at hj⟩, h0, by intro j h1 h2; omega⟩
    · rw [if_neg h0] at h
      cases hs : synthesize_lut fun_spec dist mt fuel with
      | invalid_spec => rw [hs] at h; exact absurd h (by simp)
      | running => rw [hs] at h; exact absurd h (by simp)
      | model m =>
        rw [hs] at h
        obtain ⟨⟨tail', htail', hprop⟩, hlast, hmid⟩ :=
          ih (acc ++ [m]) (dist + 1) L (by simp) h
        have hacc1 : 1 ≤ acc.length := List.length_pos.mpr hne
        refine ⟨⟨m :: tail', ?_, ?_⟩, hlast, ?_⟩
        · rw [htail', List.append_assoc, List.singleton_append]
        · intro j hj
          cases j with
          | zero => simpa using hs
          | succ i =>
            have harith : dist + (i + 1) = dist + 1 + i := by omega
            rw [harith]
            have := hprop i (by simpa using hj)
            simpa using this
        · intro j h1 h2
          by_cases hjs : acc.length ≤ j
          · exact hmid j (by simp; omega) h2
          · have hj : j = acc.length - 1 := by omega
            subst hj
            rw [htail']
            rw [list_getD_append_left _ _ _ _ (by simp; omega)]
            rw [list_getD_append_left _ _ _ _ (by omega)]
            rw [← list_getLastD_eq_getD acc default hne]
            exact h0

theorem solver_loop_zero_valid (fun_spec : List Bool) (mt n : ℕ) :
    ∀ fuel k m, solver_loop fun_spec 0 mt n k fuel = some m → m.is_valid = true := by
  intro fuel
  induction fuel with
  | zero => intro k m h; exact absurd h (by simp [solver_loop])
  | succ f ih =>
    intro k m h
    unfold solver_loop at h
    cases hf : find_model fun_spec 0 n k with
    | some q =>
      rw [hf] at h
      injection h with h
      rw [← h]
      rfl
    | none =>
      rw [hf] at h
      rw [if_neg (by omega)] at h
      exact ih (k + 1) m h

theorem list_getD_eq_getElem {α : Type} [Inhabited α] (l : List α) (j : ℕ) (h : j < l.length) :
    l.getD j default = l[j] := by
  rw [List.getD_eq_getElem?_getD, List.getElem?_eq_getElem h]
  rfl

theorem synthesize_exact_fun_spec (fun_spec : List Bool) (mt fuel : ℕ) (m : aig_model_t)
    (hpow : is_power_of_2 fun_spec.length = true)
    (h : synthesize_lut fun_spec 0 mt fuel = .model m) : m.fun_spec = fun_spec := by
  have hne : fun_spec.length ≠ 0 := by
    intro h0; rw [h0] at hpow; simp [is_power_of_2] at hpow
  have hcond : (fun_spec.isEmpty || !is_power_of_2 fun_spec.length) = false := by
    rw [Bool.or_eq_false_iff]
    refine ⟨?_, by simp [hpow]⟩
    rw [List.isEmpty_eq_false_iff_exists_mem]
    cases fun_spec with
    | nil => simp at hne
    | cons x xs => exact ⟨x, by simp⟩
  have hlenp : 2 ^ ceil_log2 fun_spec.length = fun_spec.length :=
    pow_ceil_log2_of_pow2 fun_spec.length hpow
  unfold synthesize_lut at h
  rw [hcond] at h
  simp only [Bool.false_eq_true, if_false] at h
  cases hsv : single_var fun_spec 0 with
  | some sel =>
    rw [hsv] at h
    injection h with h
    obtain ⟨-, hham⟩ := single_var_aux_sound fun_spec 0 (ceil_log2 fun_spec.length)
      (List.range (ceil_log2 fun_spec.length + 1)) sel hsv
    have hham0 : hamming_distance fun_spec
        (truth_table_column (sel / 2) (ceil_log2 fun_spec.length) (sel % 2 == 0)) = 0 := by
      omega
    have heq := hamming_distance_eq_zero
      (by rw [truth_table_column_length, hlenp]) hham0
    rw [← h]
    show truth_table_column (sel / 2) (ceil_log2 fun_spec.length) (sel % 2 == 0) = fun_spec
    exact heq.symm
  | none =>
    rw [hsv] at h
    cases hsl : solver_loop fun_spec 0 mt (ceil_log2 fun_spec.length) 0 fuel with
    | none => rw [hsl] at h; exact absurd h (by simp)
    | some m2 =>
      rw [hsl] at h
      injection h with h
      subst h
      have hv := solver_loop_zero_valid fun_spec mt (ceil_log2 fun_spec.length) fuel 0 m2 hsl
      obtain ⟨-, -, ⟨gs, op, hfind, hmodel⟩, -⟩ :=
        solver_loop_success fun_spec 0 mt (ceil_log2 fun_spec.length) fuel 0 m2 hsl hv
      obtain ⟨-, -, hsem⟩ := find_model_some fun_spec 0 (ceil_log2 fun_spec.length)
        m2.num_gates (gs, op) hfind
      rw [hmodel]
      exact model_of_fun_spec_exact fun_spec (ceil_log2 fun_spec.length) gs op hsem

/-- C2: for a truth table with a valid power-of-two-length specification,
when the catalogue ladder built by `exact_synthesis_helper` completes (and no
entry is an invalid exhausted-search result), the ladder is non-empty, the
entry at index `k` is exactly the model synthesized at output-distance `k`
(so distances are non-decreasing along the ladder), index 0 carries the exact
distance-0 synthesis whose achieved `fun_spec` equals the requested one,
`num_gates` is non-increasing along the ladder, and the ladder terminates
exactly when a zero-gate entry is appended: the last entry has zero gates and
every earlier entry has at least one. -/
theorem C2_catalogue_ladder (fun_spec : List Bool) (mt fuel lfuel : ℕ) (L : List aig_model_t)
    (hpow : is_power_of_2 fun_spec.length = true)
    (h : exact_synthesis_helper fun_spec mt fuel lfuel = some L)
    (hvalid : ∀ m ∈ L, m.is_valid = true)
    (hlen256 : L.length ≤ 256) :
    0 < L.length ∧
    (∀ j, j < L.length → synthesize_lut fun_spec j mt fuel = .model (L.getD j default)) ∧
    (L.getD 0 default).fun_spec = fun_spec ∧
    (∀ j k, j ≤ k → k < L.length →
      (L.getD k default).num_gates ≤ (L.getD j default).num_gates) ∧
    (L.getLastD default).num_gates = 0 ∧
    (∀ j, j + 1 < L.length → (L.getD j default).num_gates ≠ 0) := by
  unfold exact_synthesis_helper at h
  cases hs0 : synthesize_lut fun_spec 0 mt fuel with
  | invalid_spec => rw [hs0] at h; exact absurd h (by simp)
  | running => rw [hs0] at h; exact absurd h (by simp)
  | model m0 =>
    rw [hs0] at h
    obtain ⟨⟨tail, htail, hprop⟩, hlast, hmid⟩ :=
      ladder_loop_sound fun_spec mt fuel lfuel [m0] 1 L (by simp) h
    have hL : L = m0 :: tail := by simpa using htail
    have hlen0 : 0 < L.length := by rw [hL]; simp
    have hsynth : ∀ j, j < L.length →
        synthesize_lut fun_spec j mt fuel = .model (L.getD j default) := by
      intro j hj
      cases j with
      | zero =>
        rw [hL]
        simpa using hs0
      | succ i =>
        have hi : i < tail.length := by
          rw [hL] at hj
          simpa using hj
        have := hprop i hi
        have harith : 1 + i = i + 1 := by omega
        rw [harith] at this
        rw [hL]
        simpa using this
    have hstep : ∀ j, j + 1 < L.length →
        (L.getD (j + 1) default).num_gates ≤ (L.getD j default).num_gates := by
      intro j hj
      refine ladder_step_gates fun_spec mt fuel j (L.getD j default) (L.getD (j + 1) default)
        hpow (by omega) (hsynth j (by omega)) (hsynth (j + 1) hj) ?_ ?_
      · apply hvalid
        rw [list_getD_eq_getElem L j (by omega)]
        exact List.getElem_mem _
      · apply hvalid
        rw [list_getD_eq_getElem L (j + 1) hj]
        exact List.getElem_mem _
    refine ⟨hlen0, hsynth, ?_, ?_, hlast, ?_⟩
    · have := synthesize_exact_fun_spec fun_spec mt fuel m0 hpow hs0
      rw [hL]
      simpa using this
    · intro j k hjk hk
      induction k, hjk using Nat.le_induction with
      | base => exact le_refl _
      | succ k hjk ih =>
        exact le_trans (hstep k hk) (ih (by omega))
    · intro j hj
      have := hmid j (by simp) hj
      exact this

theorem C2_catalogue_ladder_witness :
    (and_lut_ladder.getLastD default).num_gates = 0 ∧
    (and_lut_ladder.getD 1 default).num_gates ≤ (and_lut_ladder.getD 0 default).num_gates ∧
    (and_lut_ladder.getD 0 default).fun_spec = [false, false, false, true] :=
  have hC2 := C2_catalogue_ladder [false, false, false, true] 20 10 10 and_lut_ladder
    (by decide) (by decide) (by decide) (by decide)
  ⟨hC2.2.2.2.2.1, hC2.2.2.2.1 0 1 (by omega) (by decide), hC2.2.2.1⟩

/-- C3: at the failing input `fun_spec = 0110` (XOR), `out_distance = 1`,
`max_tries = 0`, the growing search returns (does not throw) the
partially-built model still flagged invalid (`is_valid = false`); however the
catalogue builder's ladder loop does not recognize this distinguished result:
it appends the invalid model to the ladder unconditionally (there is no
`is_valid` check in `exact_synthesis_helper`), so the bad entry is propagated
into the catalogue instead of being excluded. -/
theorem C3_synthesis_exhausted_not_excluded (m0 : aig_model_t) (h : m0.num_gates ≠ 0) :
    synthesize_lut [false, true, true, false] 1 0 4 = .model (exhausted_model 2) ∧
    (exhausted_model 2).is_valid = false ∧
    ladder_loop [false, true, true, false] 0 4 [m0] 1 1 = some [m0, exhausted_model 2] ∧
    exhausted_model 2 ∈ [m0, exhausted_model 2] := by
  refine ⟨by decide, by decide, ?_, by simp⟩
  unfold ladder_loop
  rw [if_neg (by simpa using h)]
  rw [show synthesize_lut [false, true, true, false] 1 0 4 = .model (exhausted_model 2)
    from by decide]
  unfold ladder_loop
  rw [if_pos (by simp [exhausted_model])]
  rfl

theorem C3_synthesis_exhausted_not_excluded_witness :
    synthesize_lut [false, true, true, false] 1 0 4 = .model (exhausted_model 2) ∧
    (exhausted_model 2).is_valid = false ∧
    ladder_loop [false, true, true, false] 0 4 [and_lut_exact_model] 1 1 =
      some [and_lut_exact_model, exhausted_model 2] ∧
    exhausted_model 2 ∈ [and_lut_exact_model, exhausted_model 2] :=
  C3_synthesis_exhausted_not_excluded and_lut_exact_model (by decide)


theorem source_by_signal_lt (ins : List (ℕ × ℕ)) (sig idx : ℕ)
    (hins : ∀ e ∈ ins, e.1 < idx) (hne : ins ≠ []) : source_by_signal ins sig < idx := by
  unfold source_by_signal
  cases hf : ins.find? (fun e => e.2 == sig) with
  | some e =>
    have hmem := List.mem_of_find?_eq_some hf
    simpa using hins e hmem
  | none =>
    cases ins with
    | nil => exact absurd rfl hne
    | cons e rest =>
      have := hins e (by simp)
      simpa using by omega

theorem spec_value_fuel_congr (g : graph_t) (catalogue : lut_catalogue_t)
    (solution : solution_t) (input : List Bool)
    (hclosed : ∀ idx v, g.get? idx = some v → ∀ e ∈ v.ins, e.1 < idx) :
    ∀ f1 f2 idx, idx < f1 → idx < f2 →
      spec_value_fuel g catalogue solution input f1 idx =
        spec_value_fuel g catalogue solution input f2 idx := by
  intro f1
  induction f1 with
  | zero => intro f2 idx h1; omega
  | succ a ih =>
    intro f2 idx h1 h2
    cases f2 with
    | zero => omega
    | succ b =>
      unfold spec_value_fuel
      cases hget : g.get? idx with
      | none => simp only [hget]
      | some v =>
        simp only [hget]
        by_cases hne : v.ins.isEmpty
        · rw [if_pos hne, if_pos hne]
        · rw [if_neg hne, if_neg hne]
          congr 1
          congr 1
          apply List.map_congr_left
          intro sig _
          have hlt : source_by_signal v.ins sig < idx :=
            source_by_signal_lt v.ins sig idx (hclosed idx v hget)
              (by simpa [List.isEmpty_iff] using hne)
          exact ih b (source_by_signal v.ins sig) (by omega) (by omega)

theorem spec_value_base (g : graph_t) (catalogue : lut_catalogue_t) (solution : solution_t)
    (input : List Bool) (idx : ℕ) (v : vertex_t) (hget : g.get? idx = some v)
    (hempty : v.ins.isEmpty = true) :
    spec_value g catalogue solution input idx =
      (if v.type = .primary_input then input.getD (pi_rank g idx) false
       else decide (v.type = .constant_one)) := by
  unfold spec_value spec_value_fuel
  simp only [hget, hempty, if_true]

theorem spec_value_cell (g : graph_t) (catalogue : lut_catalogue_t) (solution : solution_t)
    (input : List Bool)
    (hclosed : ∀ idx v, g.get? idx = some v → ∀ e ∈ v.ins, e.1 < idx)
    (idx : ℕ) (v : vertex_t) (hget : g.get? idx = some v)
    (hempty : v.ins.isEmpty = false) :
    spec_value g catalogue solution input idx =
      ((catalogue v.lut).getD (solution idx) []).getD
        (bits_to_entry ((List.range v.ins.length).map
          (fun sig => spec_value g catalogue solution input (source_by_signal v.ins sig))))
        false := by
  unfold spec_value
  conv =>
    lhs
    unfold spec_value_fuel
  simp only [hget]
  rw [if_neg (by simp [hempty])]
  congr 1
  congr 1
  apply List.map_congr_left
  intro sig _
  have hlt : source_by_signal v.ins sig < idx :=
    source_by_signal_lt v.ins sig idx (hclosed idx v hget)
      (by simpa [List.isEmpty_iff] using hempty)
  exact spec_value_fuel_congr g catalogue solution input hclosed idx
    (source_by_signal v.ins sig + 1) (source_by_signal v.ins sig) (by omega) (by omega)

theorem list_map_range_getD {α : Type} (f : ℕ → α) (m j : ℕ) (d : α) (h : j < m) :
    ((List.range m).map f).getD j d = f j := by
  rw [List.getD_eq_getElem?_getD, List.getElem?_map, List.getElem?_range h]
  rfl

theorem list_map_range_get {α β : Type} (l : List α) (f : α → β) (d : α) :
    (List.range l.length).map (fun j => f (l.getD j d)) = l.map f := by
  apply List.ext_getElem (by simp)
  intro i h1 h2
  simp only [List.getElem_map, List.getElem_range]
  rw [List.getD_eq_getElem?_getD, List.getElem?_eq_getElem (by simpa using h2)]
  rfl

theorem source_by_signal_of_signals (ins : List (ℕ × ℕ))
    (hsig : ins.map Prod.snd = List.range ins.length) (sig : ℕ) (hsg : sig < ins.length) :
    source_by_signal ins sig = (ins.getD sig (0, 0)).1 := by
  have hsnd : ∀ j, j < ins.length → (ins.getD j (0, 0)).2 = j := by
    intro j hj
    have h1 : (ins.map Prod.snd).getD j 0 = (List.range ins.length).getD j 0 := by rw [hsig]
    rw [List.getD_eq_getElem?_getD, List.getElem?_map,
      List.getElem?_eq_getElem hj] at h1
    rw [List.getD_eq_getElem?_getD, List.getElem?_range hj] at h1
    rw [List.getD_eq_getElem?_getD, List.getElem?_eq_getElem hj]
    simpa using h1
  unfold source_by_signal
  cases hf : ins.find? (fun e => e.2 == sig) with
  | none =>
    exfalso
    have hmem : ins.getD sig (0, 0) ∈ ins := by
      rw [List.getD_eq_getElem?_getD, List.getElem?_eq_getElem hsg]
      exact List.getElem_mem _
    have := List.find?_eq_none.mp hf (ins.getD sig (0, 0)) hmem
    rw [hsnd sig hsg] at this
    simp at this
  | some e =>
    have hmem := List.mem_of_find?_eq_some hf
    have hpred := List.find?_some hf
    rw [beq_iff_eq] at hpred
    obtain ⟨j, hj, hje⟩ := List.getElem_of_mem hmem
    have : j = sig := by
      have := hsnd j hj
      rw [List.getD_eq_getElem?_getD, List.getElem?_eq_getElem hj] at this
      simp only [Option.getD_some] at this
      rw [hje] at this
      omega
    subst this
    rw [List.getD_eq_getElem?_getD, List.getElem?_eq_getElem hj]
    rw [← hje]

theorem pi_rank_succ (g : graph_t) (m : ℕ) (hm : m < g.length) :
    pi_rank g (m + 1) =
      pi_rank g m + (if (g[m].ins.isEmpty && g[m].type == .primary_input) then 1 else 0) := by
  unfold pi_rank
  rw [List.take_succ, List.getElem?_eq_getElem hm]
  rw [List.countP_append]
  by_cases hp : (g[m].ins.isEmpty && g[m].type == vertex_type.primary_input) = true
  · simp [List.countP_cons, hp]
  · simp only [Bool.not_eq_true] at hp
    simp [List.countP_cons, hp]

theorem evaluate_graph_aux_eq (g : graph_t) (catalogue : lut_catalogue_t)
    (solution : solution_t) (input : List Bool)
    (hclosed : ∀ idx v, g.get? idx = some v → ∀ e ∈ v.ins, e.1 < idx)
    (hsig : ∀ idx v, g.get? idx = some v → v.ins.map Prod.snd = List.range v.ins.length) :
    ∀ k m, g.length - m ≤ k →
      evaluate_graph_aux g catalogue solution input (g.enum.drop m)
        ((List.range m).map (spec_value g catalogue solution input)) (pi_rank g m) =
      ((g.enum.drop m).filter (fun q => !q.2.ins.isEmpty && out_degree g q.1 == 0)).map
        (fun q => spec_value g catalogue solution input q.1) := by
  intro k
  induction k with
  | zero =>
    intro m hm
    have hdrop : g.enum.drop m = [] := by
      apply List.drop_eq_nil_of_le
      rw [List.enum_length]
      omega
    rw [hdrop]
    rfl
  | succ k ih =>
    intro m hm
    by_cases hlt : m < g.length
    · have hdrop : g.enum.drop m = (m, g[m]) :: g.enum.drop (m + 1) := by
        have hm2 : m < g.enum.length := by rw [List.enum_length]; omega
        rw [List.drop_eq_getElem_cons hm2, List.getElem_enum]
      have hget : g.get? m = some g[m] := by
        rw [List.get?_eq_getElem?, List.getElem?_eq_getElem hlt]
      rw [hdrop]
      simp only [evaluate_graph_aux]
      by_cases hemp : g[m].ins.isEmpty
      · rw [if_pos hemp]
        have hb : (if g[m].type = vertex_type.primary_input then
              input.getD (pi_rank g m) false
            else decide (g[m].type = vertex_type.constant_one)) =
            spec_value g catalogue solution input m :=
          (spec_value_base g catalogue solution input m g[m] hget hemp).symm
        have hvals : (List.range m).map (spec_value g catalogue solution input) ++
            [if g[m].type = vertex_type.primary_input then input.getD (pi_rank g m) false
             else decide (g[m].type = vertex_type.constant_one)] =
            (List.range (m + 1)).map (spec_value g catalogue solution input) := by
          rw [List.range_succ, List.map_append, hb]
          rfl
        have hci : (if g[m].type = vertex_type.primary_input then pi_rank g m + 1
            else pi_rank g m) = pi_rank g (m + 1) := by
          rw [pi_rank_succ g m hlt]
          by_cases ht : g[m].type = vertex_type.primary_input
          · simp [ht, hemp]
          · simp [ht, hemp]
        rw [hvals, hci]
        rw [List.filter_cons_of_neg (by simp [hemp])]
        exact ih (m + 1) (by omega)
      · rw [if_neg hemp]
        have hemp' : g[m].ins.isEmpty = false := by
          cases hq : g[m].ins.isEmpty
          · rfl
          · exact absurd hq hemp
        have hb : ((catalogue g[m].lut).getD (solution m) []).getD
            (bits_to_entry (g[m].ins.map (fun e =>
              ((List.range m).map (spec_value g catalogue solution input)).getD e.1 false)))
            false = spec_value g catalogue solution input m := by
          rw [spec_value_cell g catalogue solution input hclosed m g[m] hget hemp']
          congr 1
          congr 1
          have hleft : g[m].ins.map (fun e =>
              ((List.range m).map (spec_value g catalogue solution input)).getD e.1 false) =
              g[m].ins.map (fun e => spec_value g catalogue solution input e.1) := by
            apply List.map_congr_left
            intro e he
            exact list_map_range_getD _ m e.1 false (hclosed m g[m] hget e he)
          have hright : (List.range g[m].ins.length).map (fun sig =>
              spec_value g catalogue solution input (source_by_signal g[m].ins sig)) =
              g[m].ins.map (fun e => spec_value g catalogue solution input e.1) := by
            have h1 : (List.range g[m].ins.length).map (fun sig =>
                spec_value g catalogue solution input (source_by_signal g[m].ins sig)) =
                (List.range g[m].ins.length).map (fun sig =>
                  spec_value g catalogue solution input ((g[m].ins.getD sig (0, 0)).1)) := by
              apply List.map_congr_left
              intro sig hs
              rw [source_by_signal_of_signals g[m].ins (hsig m g[m] hget) sig
                (List.mem_range.mp hs)]
            rw [h1]
            exact list_map_range_get g[m].ins
              (fun e => spec_value g catalogue solution input e.1) (0, 0)
          rw [hleft, hright]
        have hvals : (List.range m).map (spec_value g catalogue solution input) ++
            [((catalogue g[m].lut).getD (solution m) []).getD
              (bits_to_entry (g[m].ins.map (fun e =>
                ((List.range m).map (spec_value g catalogue solution input)).getD e.1 false)))
              false] =
            (List.range (m + 1)).map (spec_value g catalogue solution input) := by
          rw [List.range_succ, List.map_append, hb]
          rfl
        have hci : pi_rank g m = pi_rank g (m + 1) := by
          rw [pi_rank_succ g m hlt]
          simp [hemp']
        rw [hvals, hci]
        by_cases hout : out_degree g m = 0
        · rw [if_pos hout]
          rw [List.filter_cons_of_pos (by simp [hemp', hout])]
          rw [List.map_cons]
          rw [List.singleton_append]
          congr 1
          exact ih (m + 1) (by omega)
        · rw [if_neg hout]
          rw [List.filter_cons_of_neg (by simp [hemp', hout])]
          rw [List.nil_append]
          exact ih (m + 1) (by omega)
    · have hdrop : g.enum.drop m = [] := by
        apply List.drop_eq_nil_of_le
        rw [List.enum_length]
        omega
      rw [hdrop]
      rfl


/-- C9: on a topologically ordered graph (every cell's fanins precede it), the
ErSEvaluator forward pass `evaluate_graph` assigns each vertex exactly its
specification-level value: a primary input takes the corresponding bit of the input
vector (by rank among primary inputs), and a cell takes the entry of its chosen LUT
truth table indexed by its fanin values read MSB-first. -/
theorem C9_evaluate_graph_forward_pass (g : graph_t) (catalogue : lut_catalogue_t)
    (solution : solution_t) (input : List Bool)
    (hclosed : ∀ idx, idx < g.length → ∀ e ∈ (g.getD idx default).ins, e.1 < idx)
    (hsig : ∀ idx, idx < g.length →
      (g.getD idx default).ins.map Prod.snd = List.range (g.getD idx default).ins.length) :
    evaluate_graph g catalogue solution input =
      ((g.enum.filter (fun q => !q.2.ins.isEmpty && out_degree g q.1 == 0)).map
        (fun q => spec_value g catalogue solution input q.1)) ∧
    (∀ idx v, g.get? idx = some v → v.ins.isEmpty = true →
      spec_value g catalogue solution input idx =
        (if v.type = .primary_input then input.getD (pi_rank g idx) false
         else decide (v.type = .constant_one))) ∧
    (∀ idx v, g.get? idx = some v → v.ins.isEmpty = false →
      spec_value g catalogue solution input idx =
        ((catalogue v.lut).getD (solution idx) []).getD
          (bits_to_entry ((List.range v.ins.length).map
            (fun sig => spec_value g catalogue solution input (source_by_signal v.ins sig))))
          false) := by
  have hofget : ∀ idx v, g.get? idx = some v → idx < g.length ∧ v = g.getD idx default := by
    intro idx v hget
    rw [List.get?_eq_getElem?] at hget
    have hidx : idx < g.length := by
      by_contra hc
      rw [List.getElem?_eq_none (by omega)] at hget
      exact Option.noConfusion hget
    refine ⟨hidx, ?_⟩
    rw [List.getD_eq_getElem?_getD, hget]
    rfl
  have hclosed' : ∀ idx v, g.get? idx = some v → ∀ e ∈ v.ins, e.1 < idx := by
    intro idx v hget e he
    obtain ⟨hidx, hv⟩ := hofget idx v hget
    exact hclosed idx hidx e (hv ▸ he)
  have hsig' : ∀ idx v, g.get? idx = some v →
      v.ins.map Prod.snd = List.range v.ins.length := by
    intro idx v hget
    obtain ⟨hidx, hv⟩ := hofget idx v hget
    rw [hv]
    exact hsig idx hidx
  refine ⟨?_, ?_, ?_⟩
  · have h0 := evaluate_graph_aux_eq g catalogue solution input hclosed' hsig'
      g.length 0 (by omega)
    rw [List.drop_zero] at h0
    exact h0
  · intro idx v hget hemp
    exact spec_value_base g catalogue solution input idx v hget hemp
  · intro idx v hget hemp
    exact spec_value_cell g catalogue solution input hclosed' idx v hget hemp

theorem C9_evaluate_graph_forward_pass_witness :
    evaluate_graph
      [⟨.primary_input, 0, []⟩, ⟨.primary_input, 0, []⟩, ⟨.cell, 7, [(0, 0), (1, 1)]⟩]
      (fun k => if k = 7 then [[false, false, false, true]] else []) (fun _ => 0)
      [true, true] =
    ((([⟨.primary_input, 0, []⟩, ⟨.primary_input, 0, []⟩,
        ⟨.cell, 7, [(0, 0), (1, 1)]⟩] : graph_t).enum.filter
      (fun q => !q.2.ins.isEmpty &&
        out_degree [⟨.primary_input, 0, []⟩, ⟨.primary_input, 0, []⟩,
          ⟨.cell, 7, [(0, 0), (1, 1)]⟩] q.1 == 0)).map
      (fun q => spec_value
        [⟨.primary_input, 0, []⟩, ⟨.primary_input, 0, []⟩, ⟨.cell, 7, [(0, 0), (1, 1)]⟩]
        (fun k => if k = 7 then [[false, false, false, true]] else []) (fun _ => 0)
        [true, true] q.1)) :=
  (C9_evaluate_graph_forward_pass
    [⟨.primary_input, 0, []⟩, ⟨.primary_input, 0, []⟩, ⟨.cell, 7, [(0, 0), (1, 1)]⟩]
    (fun k => if k = 7 then [[false, false, false, true]] else []) (fun _ => 0)
    [true, true] (by decide) (by decide)).1


theorem list_sum_range_eq (f : ℕ → ℚ) (n : ℕ) :
    ((List.range n).map f).sum = ∑ i ∈ Finset.range n, f i := by
  induction n with
  | zero => simp
  | succ m ih => rw [List.range_succ, List.map_append, List.sum_append,
      Finset.sum_range_succ, ih]; simp

theorem sum_range_two_mul (f : ℕ → ℚ) (na : ℕ) :
    ((List.range (2 * na)).map f).sum =
      ((List.range na).map (fun r => f (2 * r) + f (2 * r + 1))).sum := by
  induction na with
  | zero => simp
  | succ m ih =>
    have h1 : 2 * (m + 1) = 2 * m + 1 + 1 := by omega
    rw [h1, List.range_succ, List.range_succ, List.map_append, List.sum_append,
      List.map_append, List.sum_append, ih, List.range_succ, List.map_append,
      List.sum_append]
    simp
    ring

theorem good_z_diag (z : z_matrix_t) (h : good_z z) : z_diag z 2 := by
  intro i j hi hj hne
  interval_cases i <;> interval_cases j <;> first | omega | exact h.1 | exact h.2.1

theorem good_z_trace (z : z_matrix_t) (h : good_z z) : z_trace_one z 2 := by
  unfold z_trace_one
  simp [List.range_succ]
  linarith [h.2.2]

theorem kron_diag (a b : z_matrix_t) (na : ℕ) (ha : z_diag a na) (hb : z_diag b 2) :
    z_diag (kron a b) (2 * na) := by
  intro i j hi hj hne
  unfold kron
  by_cases hq : i / 2 = j / 2
  · have hm : i % 2 ≠ j % 2 := by omega
    rw [hb (i % 2) (j % 2) (by omega) (by omega) hm]
    ring
  · rw [ha (i / 2) (j / 2) (by omega) (by omega) hq]
    ring

theorem kron_trace (a b : z_matrix_t) (na : ℕ) (ha : z_trace_one a na)
    (hb : z_trace_one b 2) : z_trace_one (kron a b) (2 * na) := by
  unfold z_trace_one at *
  rw [sum_range_two_mul]
  have hpt : ∀ r : ℕ, kron a b (2 * r) (2 * r) + kron a b (2 * r + 1) (2 * r + 1) =
      a r r * (b 0 0 + b 1 1) := by
    intro r
    unfold kron
    have h1 : 2 * r / 2 = r := by omega
    have h2 : 2 * r % 2 = 0 := by omega
    have h3 : (2 * r + 1) / 2 = r := by omega
    have h4 : (2 * r + 1) % 2 = 1 := by omega
    rw [h1, h2, h3, h4]
    ring
  have hb1 : b 0 0 + b 1 1 = 1 := by
    simpa [List.range_succ] using hb
  calc ((List.range na).map (fun r => kron a b (2 * r) (2 * r) +
        kron a b (2 * r + 1) (2 * r + 1))).sum
      = ((List.range na).map (fun r => a r r * 1)).sum := by
        congr 1
        apply List.map_congr_left
        intro r _
        rw [hpt r, hb1]
    _ = 1 := by
        simpa using ha

theorem big_i_good (zs : List z_matrix_t) (hne : zs ≠ [])
    (hall : ∀ z ∈ zs, good_z z) :
    z_diag (big_i_of zs) (2 ^ zs.length) ∧ z_trace_one (big_i_of zs) (2 ^ zs.length) := by
  cases zs with
  | nil => exact absurd rfl hne
  | cons z rest =>
    have hz := hall z (by simp)
    have hfold : ∀ (l : List z_matrix_t) (acc : z_matrix_t) (nn : ℕ),
        z_diag acc nn → z_trace_one acc nn → (∀ w ∈ l, good_z w) →
        z_diag (l.foldl kron acc) (2 ^ l.length * nn) ∧
          z_trace_one (l.foldl kron acc) (2 ^ l.length * nn) := by
      intro l
      induction l with
      | nil => intro acc nn h1 h2 _; simpa using ⟨h1, h2⟩
      | cons w tail ih =>
        intro acc nn h1 h2 hall2
        have hw := hall2 w (by simp)
        have hstep1 : z_diag (kron acc w) (2 * nn) := kron_diag acc w nn h1 (good_z_diag w hw)
        have hstep2 : z_trace_one (kron acc w) (2 * nn) :=
          kron_trace acc w nn h2 (good_z_trace w hw)
        have := ih (kron acc w) (2 * nn) hstep1 hstep2 (fun u hu => hall2 u (by simp [hu]))
        have harith : 2 ^ tail.length * (2 * nn) = 2 ^ (w :: tail).length * nn := by
          simp [List.length_cons]
          ring
        rw [harith] at this
        simpa using this
    have := hfold rest z 2 (good_z_diag z hz) (good_z_trace z hz)
      (fun u hu => hall u (by simp [hu]))
    have harith : 2 ^ rest.length * 2 = 2 ^ (z :: rest).length := by
      simp [List.length_cons]
      ring
    rw [harith] at this
    exact this

theorem truth_matrix_offdiag (s : List Bool) (u : ℕ) :
    truth_matrix s u 0 * truth_matrix s u 1 = 0 := by
  unfold truth_matrix
  cases s.getD u false <;> norm_num

theorem truth_matrix_sq (s : List Bool) (u : ℕ) :
    truth_matrix s u 0 * truth_matrix s u 0 + truth_matrix s u 1 * truth_matrix s u 1 = 1 := by
  unfold truth_matrix
  cases s.getD u false <;> norm_num

theorem z_in_degree_pos_eq_sum (k : ℕ) (ex ch : List Bool) (zs : List z_matrix_t) (a b : ℕ) :
    z_in_degree_pos k ex ch zs a b =
      ∑ u ∈ Finset.range (2 ^ k), ∑ t ∈ Finset.range (2 ^ k),
        big_i_of zs u t * truth_matrix ch t a * truth_matrix ex u b := by
  unfold z_in_degree_pos
  rw [list_sum_range_eq]
  apply Finset.sum_congr rfl
  intro u _
  rw [list_sum_range_eq]

theorem z_in_degree_pos_good (k : ℕ) (s : List Bool) (zs : List z_matrix_t)
    (hk : zs.length = k) (hne : zs ≠ []) (hall : ∀ z ∈ zs, good_z z) :
    good_z (z_in_degree_pos k s s zs) := by
  obtain ⟨hdiag, htr⟩ := big_i_good zs hne hall
  rw [hk] at hdiag htr
  have hcollapse : ∀ a b : ℕ, z_in_degree_pos k s s zs a b =
      ∑ u ∈ Finset.range (2 ^ k), big_i_of zs u u * truth_matrix s u a * truth_matrix s u b := by
    intro a b
    rw [z_in_degree_pos_eq_sum]
    apply Finset.sum_congr rfl
    intro u hu
    apply Finset.sum_eq_single u
    · intro t ht htu
      rw [hdiag u t (Finset.mem_range.mp hu) (Finset.mem_range.mp ht) (Ne.symm htu)]
      ring
    · intro hu2
      exact absurd hu hu2
  refine ⟨?_, ?_, ?_⟩
  · rw [hcollapse]
    apply Finset.sum_eq_zero
    intro u _
    have := truth_matrix_offdiag s u
    calc big_i_of zs u u * truth_matrix s u 0 * truth_matrix s u 1
        = big_i_of zs u u * (truth_matrix s u 0 * truth_matrix s u 1) := by ring
      _ = 0 := by rw [this]; ring
  · rw [hcollapse]
    apply Finset.sum_eq_zero
    intro u _
    have := truth_matrix_offdiag s u
    calc big_i_of zs u u * truth_matrix s u 1 * truth_matrix s u 0
        = big_i_of zs u u * (truth_matrix s u 0 * truth_matrix s u 1) := by ring
      _ = 0 := by rw [this]; ring
  · rw [hcollapse, hcollapse, ← Finset.sum_add_distrib]
    unfold z_trace_one at htr
    rw [list_sum_range_eq] at htr
    calc ∑ u ∈ Finset.range (2 ^ k),
          (big_i_of zs u u * truth_matrix s u 0 * truth_matrix s u 0 +
            big_i_of zs u u * truth_matrix s u 1 * truth_matrix s u 1)
        = ∑ u ∈ Finset.range (2 ^ k), big_i_of zs u u := by
          apply Finset.sum_congr rfl
          intro u _
          have := truth_matrix_sq s u
          calc big_i_of zs u u * truth_matrix s u 0 * truth_matrix s u 0 +
                big_i_of zs u u * truth_matrix s u 1 * truth_matrix s u 1
              = big_i_of zs u u * (truth_matrix s u 0 * truth_matrix s u 0 +
                  truth_matrix s u 1 * truth_matrix s u 1) := by ring
            _ = big_i_of zs u u := by rw [this]; ring
      _ = 1 := htr

theorem z_in_degree_0_good (ty : vertex_type) (h : ty ≠ .cell) :
    good_z (z_in_degree_0 ty) := by
  cases ty
  · refine ⟨by norm_num [z_in_degree_0], by norm_num [z_in_degree_0], by norm_num [z_in_degree_0]⟩
  · refine ⟨by norm_num [z_in_degree_0], by norm_num [z_in_degree_0], by norm_num [z_in_degree_0]⟩
  · refine ⟨by norm_num [z_in_degree_0], by norm_num [z_in_degree_0], by norm_num [z_in_degree_0]⟩
  · exact absurd rfl h

theorem list_getD_mem {α : Type} (l : List α) (j : ℕ) (d : α) (h : j < l.length) :
    l.getD j d ∈ l := by
  rw [List.getD_eq_getElem?_getD, List.getElem?_eq_getElem h]
  exact List.getElem_mem _

theorem output_reliability_aux_ones (g : graph_t) (catalogue : lut_catalogue_t)
    (hclosed : ∀ idx v, g.get? idx = some v → ∀ e ∈ v.ins, e.1 < idx)
    (hkind : ∀ idx v, g.get? idx = some v → v.ins = [] → v.type ≠ .cell)
    (hcat : ∀ idx v, g.get? idx = some v → v.ins ≠ [] →
      ((catalogue v.lut).getD 0 []).length = 2 ^ v.ins.length) :
    ∀ k m zs, g.length - m ≤ k → zs.length = m → (∀ z ∈ zs, good_z z) →
      ∀ r ∈ output_reliability_aux g catalogue (fun _ => 0) (g.enum.drop m) zs, r = 1 := by
  intro k
  induction k with
  | zero =>
    intro m zs hm _ _ r hr
    rw [List.drop_eq_nil_of_le (by rw [List.enum_length]; omega)] at hr
    exact absurd hr (by simp [output_reliability_aux])
  | succ k ih =>
    intro m zs hm hzlen hzgood r hr
    by_cases hlt : m < g.length
    · have hdrop : g.enum.drop m = (m, g[m]) :: g.enum.drop (m + 1) := by
        have hm2 : m < g.enum.length := by rw [List.enum_length]; omega
        rw [List.drop_eq_getElem_cons hm2, List.getElem_enum]
      have hget : g.get? m = some g[m] := by
        rw [List.get?_eq_getElem?, List.getElem?_eq_getElem hlt]
      rw [hdrop] at hr
      simp only [output_reliability_aux] at hr
      -- the Z matrix of the current vertex is good
      have hznew : good_z (if g[m].ins.isEmpty then z_in_degree_0 g[m].type
          else
            z_in_degree_pos g[m].ins.length ((catalogue g[m].lut).getD 0 [])
              ((catalogue g[m].lut).getD ((fun _ => 0) m) [])
              ((List.range g[m].ins.length).map
                (fun sig => zs.getD (source_by_signal g[m].ins sig) (fun _ _ => 0)))) := by
        by_cases hemp : g[m].ins.isEmpty
        · rw [if_pos hemp]
          exact z_in_degree_0_good g[m].type
            (hkind m g[m] hget (by simpa [List.isEmpty_iff] using hemp))
        · rw [if_neg hemp]
          have hne2 : g[m].ins ≠ [] := by simpa [List.isEmpty_iff] using hemp
          apply z_in_degree_pos_good
          · simp
          · simp only [ne_eq, List.map_eq_nil_iff, List.range_eq_nil]
            intro hc
            exact hne2 (List.length_eq_zero.mp hc)
          · intro z hz
            simp only [List.mem_map, List.mem_range] at hz
            obtain ⟨sig, hsig2, rfl⟩ := hz
            have hsrc : source_by_signal g[m].ins sig < m :=
              source_by_signal_lt g[m].ins sig m (hclosed m g[m] hget) hne2
            apply hzgood
            exact list_getD_mem zs (source_by_signal g[m].ins sig) _ (by omega)
      rcases List.mem_append.mp hr with hr1 | hr2
      · by_cases hcond : (!g[m].ins.isEmpty && out_degree g m == 0) = true
        · rw [if_pos hcond] at hr1
          rw [List.mem_singleton] at hr1
          have hemp : ¬g[m].ins.isEmpty = true := by
            rw [Bool.and_eq_true] at hcond
            simpa using hcond.1
          rw [if_neg hemp] at hznew
          rw [hr1]
          exact hznew.2.2
        · rw [if_neg hcond] at hr1
          exact absurd hr1 (List.not_mem_nil r)
      · refine ih (m + 1) _ (by omega) (by simp [hzlen]) ?_ r hr2
        intro z hz
        rcases List.mem_append.mp hz with hz1 | hz2
        · exact hzgood z hz1
        · rw [List.mem_singleton] at hz2
          rw [hz2]
          exact hznew
    · rw [List.drop_eq_nil_of_le (by rw [List.enum_length]; omega)] at hr
      exact absurd hr (by simp [output_reliability_aux])

/-- C4: with the empty solution (index 0 everywhere, i.e. every cell mapped to its
exact implementation), every output reliability computed by the ErSEvaluator forward
pass equals 1, and the starting Z matrices are the documented degree-0 values:
diag(1, 0) for constant zero, diag(0, 1) for constant one, and diag(1/2, 1/2) for a
primary input (all off-diagonal entries zero). -/
theorem C4_output_reliability_empty_solution (g : graph_t) (catalogue : lut_catalogue_t)
    (hclosed : ∀ idx, idx < g.length → ∀ e ∈ (g.getD idx default).ins, e.1 < idx)
    (hkind : ∀ idx, idx < g.length →
      (g.getD idx default).ins = [] → (g.getD idx default).type ≠ .cell)
    (hcat : ∀ idx, idx < g.length → (g.getD idx default).ins ≠ [] →
      ((catalogue (g.getD idx default).lut).getD 0 []).length =
        2 ^ (g.getD idx default).ins.length) :
    (∀ r ∈ output_reliability g catalogue (fun _ => 0), r = 1) ∧
    z_in_degree_0 .constant_zero 0 0 = 1 ∧ z_in_degree_0 .constant_zero 0 1 = 0 ∧
    z_in_degree_0 .constant_zero 1 0 = 0 ∧ z_in_degree_0 .constant_zero 1 1 = 0 ∧
    z_in_degree_0 .constant_one 0 0 = 0 ∧ z_in_degree_0 .constant_one 1 1 = 1 ∧
    z_in_degree_0 .primary_input 0 0 = 1 / 2 ∧ z_in_degree_0 .primary_input 0 1 = 0 ∧
    z_in_degree_0 .primary_input 1 0 = 0 ∧ z_in_degree_0 .primary_input 1 1 = 1 / 2 := by
  have hofget : ∀ idx v, g.get? idx = some v → idx < g.length ∧ v = g.getD idx default := by
    intro idx v hget
    rw [List.get?_eq_getElem?] at hget
    have hidx : idx < g.length := by
      by_contra hc
      rw [List.getElem?_eq_none (by omega)] at hget
      exact Option.noConfusion hget
    refine ⟨hidx, ?_⟩
    rw [List.getD_eq_getElem?_getD, hget]
    rfl
  refine ⟨?_, by norm_num [z_in_degree_0], by norm_num [z_in_degree_0],
    by norm_num [z_in_degree_0], by norm_num [z_in_degree_0], by norm_num [z_in_degree_0],
    by norm_num [z_in_degree_0], by norm_num [z_in_degree_0], by norm_num [z_in_degree_0],
    by norm_num [z_in_degree_0], by norm_num [z_in_degree_0]⟩
  intro r hr
  have h := output_reliability_aux_ones g catalogue
    (fun idx v hget e he => by
      obtain ⟨hidx, hv⟩ := hofget idx v hget
      exact hclosed idx hidx e (hv ▸ he))
    (fun idx v hget hnil => by
      obtain ⟨hidx, hv⟩ := hofget idx v hget
      exact hv ▸ hkind idx hidx (hv ▸ hnil))
    (fun idx v hget hne => by
      obtain ⟨hidx, hv⟩ := hofget idx v hget
      exact hv ▸ hcat idx hidx (hv ▸ hne))
    g.length 0 [] (by omega) rfl (by intro z hz; exact absurd hz (List.not_mem_nil z))
  apply h
  unfold output_reliability at hr
  rw [List.drop_zero]
  exact hr

theorem C4_output_reliability_empty_solution_witness :
    (output_reliability
      [⟨.primary_input, 0, []⟩, ⟨.primary_input, 0, []⟩, ⟨.cell, 7, [(0, 0), (1, 1)]⟩]
      (fun k => if k = 7 then [[false, false, false, true]] else [])
      (fun _ => 0)).getD 0 0 = 1 := by
  have h := (C4_output_reliability_empty_solution
    [⟨.primary_input, 0, []⟩, ⟨.primary_input, 0, []⟩, ⟨.cell, 7, [(0, 0), (1, 1)]⟩]
    (fun k => if k = 7 then [[false, false, false, true]] else [])
    (by decide) (by decide) (by decide)).1
  have hlen : (output_reliability
      [⟨.primary_input, 0, []⟩, ⟨.primary_input, 0, []⟩, ⟨.cell, 7, [(0, 0), (1, 1)]⟩]
      (fun k => if k = 7 then [[false, false, false, true]] else [])
      (fun _ => 0)).length = 1 := by decide
  apply h
  exact list_getD_mem _ 0 0 (by omega)

/-- C10: the simulation-based circuit reliability estimate always lies in [0, 1]
(so 1 - reliability, the error handed to the optimizer, is never negative): the raw
hit fraction r_s is a count divided by the number of test vectors, the statistical
correction (applied only when 10 * |test_vectors| < 2 ^ num_inputs) only adds a
nonnegative term, and a corrected value exceeding 1 is discarded in favour of r_s;
when no correction applies the result is exactly the raw fraction. -/
theorem C10_circuit_reliability_bounds (sqrt_fn : ℚ → ℚ) (g : graph_t)
    (catalogue : lut_catalogue_t) (solution : solution_t)
    (test_vectors exact_outputs : List (List Bool)) (num_inputs : ℕ)
    (hne : test_vectors ≠ []) (hsqrt : ∀ x, 0 ≤ sqrt_fn x) :
    0 ≤ circuit_reliability sqrt_fn g catalogue solution test_vectors exact_outputs
      num_inputs ∧
    circuit_reliability sqrt_fn g catalogue solution test_vectors exact_outputs
      num_inputs ≤ 1 ∧
    0 ≤ 1 - circuit_reliability sqrt_fn g catalogue solution test_vectors exact_outputs
      num_inputs ∧
    (¬(10 * test_vectors.length < 2 ^ num_inputs) →
      circuit_reliability sqrt_fn g catalogue solution test_vectors exact_outputs num_inputs =
        (((test_vectors.zip exact_outputs).countP
          (fun q => evaluate_graph g catalogue solution q.1 == q.2) : ℕ) : ℚ) /
          (test_vectors.length : ℚ)) := by
  have hlen : 1 ≤ test_vectors.length := List.length_pos.mpr hne
  have hcnt : (test_vectors.zip exact_outputs).countP
      (fun q => evaluate_graph g catalogue solution q.1 == q.2) ≤ test_vectors.length := by
    have h1 : (test_vectors.zip exact_outputs).countP
        (fun q => evaluate_graph g catalogue solution q.1 == q.2) ≤
        (test_vectors.zip exact_outputs).length := List.countP_le_length _
    have h2 : (test_vectors.zip exact_outputs).length ≤ test_vectors.length := by
      rw [List.length_zip]; omega
    omega
  have hnq : (0 : ℚ) < (test_vectors.length : ℚ) := by
    have h0 : 0 < test_vectors.length := hlen
    exact_mod_cast h0
  have hr0 : 0 ≤ (((test_vectors.zip exact_outputs).countP
      (fun q => evaluate_graph g catalogue solution q.1 == q.2) : ℕ) : ℚ) /
      (test_vectors.length : ℚ) := by positivity
  have hr1 : (((test_vectors.zip exact_outputs).countP
      (fun q => evaluate_graph g catalogue solution q.1 == q.2) : ℕ) : ℚ) /
      (test_vectors.length : ℚ) ≤ 1 := by
    rw [div_le_one hnq]
    exact_mod_cast hcnt
  unfold circuit_reliability
  simp only []
  by_cases hout : 10 * test_vectors.length < 2 ^ num_inputs
  · rw [if_pos hout]
    by_cases hinner : (1 : ℚ) <
        (((test_vectors.zip exact_outputs).countP
          (fun q => evaluate_graph g catalogue solution q.1 == q.2) : ℕ) : ℚ) /
          (test_vectors.length : ℚ) +
        9 / 2 / (test_vectors.length : ℚ) *
          (1 + sqrt_fn (1 + 4 / 9 * (test_vectors.length : ℚ) *
            ((((test_vectors.zip exact_outputs).countP
              (fun q => evaluate_graph g catalogue solution q.1 == q.2) : ℕ) : ℚ) /
              (test_vectors.length : ℚ)) *
            (1 - (((test_vectors.zip exact_outputs).countP
              (fun q => evaluate_graph g catalogue solution q.1 == q.2) : ℕ) : ℚ) /
              (test_vectors.length : ℚ))))
    · rw [if_pos hinner]
      exact ⟨hr0, hr1, by linarith, fun hc => absurd hout hc⟩
    · rw [if_neg hinner]
      push_neg at hinner
      have hcorr : 0 ≤ 9 / 2 / (test_vectors.length : ℚ) *
          (1 + sqrt_fn (1 + 4 / 9 * (test_vectors.length : ℚ) *
            ((((test_vectors.zip exact_outputs).countP
              (fun q => evaluate_graph g catalogue solution q.1 == q.2) : ℕ) : ℚ) /
              (test_vectors.length : ℚ)) *
            (1 - (((test_vectors.zip exact_outputs).countP
              (fun q => evaluate_graph g catalogue solution q.1 == q.2) : ℕ) : ℚ) /
              (test_vectors.length : ℚ)))) := by
        apply mul_nonneg
        · positivity
        · have := hsqrt (1 + 4 / 9 * (test_vectors.length : ℚ) *
            ((((test_vectors.zip exact_outputs).countP
              (fun q => evaluate_graph g catalogue solution q.1 == q.2) : ℕ) : ℚ) /
              (test_vectors.length : ℚ)) *
            (1 - (((test_vectors.zip exact_outputs).countP
              (fun q => evaluate_graph g catalogue solution q.1 == q.2) : ℕ) : ℚ) /
              (test_vectors.length : ℚ)))
          linarith
      exact ⟨by linarith, hinner, by linarith, fun hc => absurd hout hc⟩
  · rw [if_neg hout]
    exact ⟨hr0, hr1, by linarith, fun _ => rfl⟩

theorem C10_circuit_reliability_bounds_witness :
    0 ≤ circuit_reliability (fun _ => 0)
      [⟨.primary_input, 0, []⟩, ⟨.primary_input, 0, []⟩, ⟨.cell, 7, [(0, 0), (1, 1)]⟩]
      (fun k => if k = 7 then [[false, false, false, true]] else []) (fun _ => 0)
      [[true, true], [true, false]] [[true], [false]] 2 ∧
    circuit_reliability (fun _ => 0)
      [⟨.primary_input, 0, []⟩, ⟨.primary_input, 0, []⟩, ⟨.cell, 7, [(0, 0), (1, 1)]⟩]
      (fun k => if k = 7 then [[false, false, false, true]] else []) (fun _ => 0)
      [[true, true], [true, false]] [[true], [false]] 2 ≤ 1 :=
  ⟨(C10_circuit_reliability_bounds (fun _ => 0)
      [⟨.primary_input, 0, []⟩, ⟨.primary_input, 0, []⟩, ⟨.cell, 7, [(0, 0), (1, 1)]⟩]
      (fun k => if k = 7 then [[false, false, false, true]] else []) (fun _ => 0)
      [[true, true], [true, false]] [[true], [false]] 2 (by decide)
      (fun _ => le_refl 0)).1,
   (C10_circuit_reliability_bounds (fun _ => 0)
      [⟨.primary_input, 0, []⟩, ⟨.primary_input, 0, []⟩, ⟨.cell, 7, [(0, 0), (1, 1)]⟩]
      (fun k => if k = 7 then [[false, false, false, true]] else []) (fun _ => 0)
      [[true, true], [true, false]] [[true], [false]] 2 (by decide)
      (fun _ => le_refl 0)).2.1⟩

end yosys_als
